import Mathlib

/-!
# Same-site link crawler (`main.go`)

A shallow embedding of the crawl engine of `main.go` and the properties of its
specification.

Modelling conventions.

* Go strings are Lean strings.  All separators the program looks at (`/`, `.`,
  `:`, `#`, `?`, the text `www.`, `http://`, `https://`) are ASCII, and the byte
  order of UTF-8 text is the order of its code points, so working on characters
  agrees with Go working on the bytes of well-formed UTF-8 text.
* The two package-level variables `links` and `visited` are the fields of
  `State`, threaded through `crawl` and `CrawlWebpage`.  The field `fetched` is
  an observation added to the state: the sequence of URLs handed to `http.Get`.
* The network and the HTML tokenizer are a parameter `site`: for a URL it gives
  `none` when the GET fails or answers with a status other than 200, and
  otherwise the `href` values of the `a` start and self-closing tags of the
  page, in document order.
* `url.Parse` is a parameter `parse` of the functions that call it, giving the
  two fields the program reads (`Scheme`, `Host`) or `none` for an error.  The
  general theorems hold for every such function.  `urlParse` is a model of the
  standard-library function used where a concrete URL is evaluated.
* `path.Clean`, `strings.Split`, `strings.TrimPrefix`, `strings.HasPrefix` and
  `sort.Strings` are transcribed from the Go standard library.
* The depth is an integer.  The program computes `depth - 1` only where
  `depth >= 0`, so the 64-bit `int` of Go never wraps there.
-/

namespace WebCrawler

/-! ## Strings -/

/-- Lexicographic `<` on character sequences, comparing code points: the order
Go's `<` on strings (and so `sort.Strings`) uses. -/
def lessChars : List Char → List Char → Bool
  | _, [] => false
  | [], _ :: _ => true
  | a :: as, b :: bs =>
    if a.toNat < b.toNat then true
    else if b.toNat < a.toNat then false
    else lessChars as bs

/-- Go's `a < b` on strings. -/
def stringLess (a b : String) : Bool := lessChars a.data b.data

/-- The relation `a <= b` on strings, as `!(b < a)`. -/
def stringLe (a b : String) : Prop := stringLess b a = false

instance : DecidableRel stringLe := fun a b => inferInstanceAs (Decidable (stringLess b a = false))

/-- `sort.Strings`: the ascending rearrangement of the slice.  (Go runs a
pattern-defeating quicksort; equal strings are indistinguishable, so every
correct sort returns the same slice.) -/
def sortStrings (l : List String) : List String := List.insertionSort stringLe l

/-- `strings.HasPrefix`. -/
def HasPrefix (s pre : String) : Bool := pre.data.isPrefixOf s.data

/-- `strings.TrimPrefix`. -/
def TrimPrefix (s pre : String) : String :=
  if HasPrefix s pre then ⟨s.data.drop pre.data.length⟩ else s

/-- Splitting a character sequence at every occurrence of `sep`: `n + 1` pieces
for `n` occurrences, so the empty sequence gives one empty piece. -/
def splitChars (sep : Char) : List Char → List (List Char)
  | [] => [[]]
  | c :: cs =>
    if c = sep then [] :: splitChars sep cs
    else
      match splitChars sep cs with
      | [] => [[c]]
      | p :: ps => (c :: p) :: ps

/-- `strings.Split(s, sep)` for a separator of one character. -/
def Split (s : String) (sep : Char) : List String := (splitChars sep s.data).map String.mk

/-! ## `path.Clean` -/

/-- The `..` case of `path.Clean` when it can backtrack: `out.w--` and then
`for out.w > dotdot && out.index(out.w) != '/' { out.w-- }`.  The buffer is held
reversed, last written character first, so `out.index(out.w)` after a decrement
is the character just dropped. -/
def backtrack (dotdot : Nat) : List Char → List Char
  | [] => []
  | x :: rest => if rest.length > dotdot ∧ x ≠ '/' then backtrack dotdot rest else rest

/-- The main loop `for r < n` of `path.Clean`.  `rest` is `path[r:]`, `out` the
written part of the buffer (reversed), `fuel` bounds the number of iterations
(each one consumes at least one character of `rest`, see `cleanLoop_fuel`). -/
def cleanLoop (rooted : Bool) : Nat → List Char → List Char → Nat → List Char
  | 0, _, out, _ => out
  | fuel + 1, rest, out, dotdot =>
    match rest with
    | [] => out
    | c :: r1 =>
      if c = '/' then
        cleanLoop rooted fuel r1 out dotdot
      else if c = '.' ∧ (r1 = [] ∨ r1.head? = some '/') then
        cleanLoop rooted fuel r1 out dotdot
      else if c = '.' ∧ r1.head? = some '.' ∧ (r1.tail = [] ∨ r1.tail.head? = some '/') then
        if out.length > dotdot then
          cleanLoop rooted fuel r1.tail (backtrack dotdot out) dotdot
        else if rooted = false then
          let out1 := if out.length > 0 then '/' :: out else out
          cleanLoop rooted fuel r1.tail ('.' :: '.' :: out1) (out1.length + 2)
        else
          cleanLoop rooted fuel r1.tail out dotdot
      else
        let out1 :=
          if (rooted = true ∧ out.length ≠ 1) ∨ (rooted = false ∧ out.length ≠ 0) then '/' :: out
          else out
        cleanLoop rooted fuel (rest.dropWhile (fun x => x ≠ '/'))
          ((rest.takeWhile (fun x => x ≠ '/')).reverse ++ out1) dotdot

/-- `path.Clean`. -/
def Clean (path : String) : String :=
  if path = "" then "."
  else
    let rooted : Bool := path.data.head? = some '/'
    let out :=
      if rooted then cleanLoop rooted path.data.length path.data.tail ['/'] 1
      else cleanLoop rooted path.data.length path.data [] 0
    if out.length = 0 then "." else ⟨out.reverse⟩

/-! ## `url.Parse` -/

/-- The fields of `url.URL` that the program reads. -/
structure URL where
  Scheme : String
  Host : String
  deriving DecidableEq, Repr

/-- `stringContainsCTLByte`. -/
def containsCTL (s : List Char) : Bool := s.any (fun c => c.toNat < 0x20 || c.toNat = 0x7f)

/-- `getScheme`: `none` is the error "missing protocol scheme", otherwise the
scheme and the rest.  `i` is the index of the head of the second list in `raw`. -/
def getSchemeFrom (raw : List Char) : Nat → List Char → Option (List Char × List Char)
  | _, [] => some ([], raw)
  | i, c :: cs =>
    if c.isAlpha then getSchemeFrom raw (i + 1) cs
    else if c.isDigit || c = '+' || c = '-' || c = '.' then
      if i = 0 then some ([], raw) else getSchemeFrom raw (i + 1) cs
    else if c = ':' then
      if i = 0 then none else some (raw.take i, cs)
    else some ([], raw)

/-- `ishex`. -/
def ishex (c : Char) : Bool :=
  c.isDigit || (97 ≤ c.toNat && c.toNat ≤ 102) || (65 ≤ c.toNat && c.toNat ≤ 70)

/-- The well-formedness pass of `unescape` outside host mode: every `%` is
followed by two hexadecimal digits. -/
def escapesOk : List Char → Bool
  | [] => true
  | c :: cs =>
    if c = '%' then
      match cs with
      | h1 :: h2 :: cs2 => ishex h1 && ishex h2 && escapesOk cs2
      | _ => false
    else escapesOk cs

/-- `shouldEscape(c, encodeHost)` for an ASCII character. -/
def shouldEscapeHost (c : Char) : Bool :=
  !(c.isAlphanum ||
    "!$&()*+,;=:[]<>\"-_.~".data.contains c || c = Char.ofNat 39)

/-- The well-formedness pass of `unescape` in host mode: a `%` starts an escape
of a non-ASCII byte or is `%25`, and no other ASCII character needs escaping. -/
def hostCharsOk : List Char → Bool
  | [] => true
  | c :: cs =>
    if c = '%' then
      match cs with
      | h1 :: h2 :: cs2 =>
        ishex h1 && ishex h2 && (!(h1.isDigit && h1.toNat < 56) || (h1 = '2' && h2 = '5'))
          && hostCharsOk cs2
      | _ => false
    else if c.toNat < 0x80 && shouldEscapeHost c then false
    else hostCharsOk cs

/-- `validOptionalPort`. -/
def validOptionalPort : List Char → Bool
  | [] => true
  | c :: ds => c = ':' && ds.all Char.isDigit

/-- `validUserinfo`. -/
def validUserinfo (s : List Char) : Bool :=
  s.all (fun c => c.isAlphanum || "-._:~!$&()*+,;=%@".data.contains c || c = Char.ofNat 39)

/-- The part of a sequence after the last occurrence of `sep` (everything when
there is none). -/
def afterLast (sep : Char) (s : List Char) : List Char :=
  (s.reverse.takeWhile (fun x => x ≠ sep)).reverse

/-- `parseHost`: validation of the port and of the characters of the host.  Two
things are left out, both only met when the authority contains `%`: the host is
returned as written (Go decodes the escapes of non-ASCII bytes), and the zone
of a bracketed IP literal is checked like the rest of the host. -/
def parseHost (host : List Char) : Option (List Char) :=
  let portOk : Bool :=
    if host.head? = some '[' then
      host.contains ']' && validOptionalPort (afterLast ']' host)
    else if host.contains ':' then validOptionalPort (':' :: afterLast ':' host)
    else true
  if portOk && hostCharsOk host then some host else none

/-- `parseAuthority`: the host is what follows the last `@`. -/
def parseAuthority (authority : List Char) : Option (List Char) :=
  if authority.contains '@' then
    let userinfo := (authority.reverse.dropWhile (fun x => x ≠ '@')).tail.reverse
    match parseHost (afterLast '@' authority) with
    | none => none
    | some host => if validUserinfo userinfo && escapesOk userinfo then some host else none
  else parseHost authority

/-- The function `parse(rawURL, false)` of `net/url`, up to the fields `Scheme`
and `Host`. -/
def parseNoFragment (u : List Char) : Option URL :=
  if containsCTL u then none
  else if u = ['*'] then some ⟨"", ""⟩
  else
    match getSchemeFrom u 0 u with
    | none => none
    | some (scheme0, rest0) =>
      let scheme := scheme0.map Char.toLower
      let rest := rest0.takeWhile (fun x => x ≠ '?')
      if rest.head? ≠ some '/' ∧ scheme ≠ [] then some ⟨⟨scheme⟩, ""⟩
      else if rest.head? ≠ some '/' ∧ (rest.takeWhile (fun x => x ≠ '/')).contains ':' then none
      else if (scheme ≠ [] ∨ ¬ "///".data.isPrefixOf rest) ∧ "//".data.isPrefixOf rest then
        let afterSlashes := rest.drop 2
        let authority := afterSlashes.takeWhile (fun x => x ≠ '/')
        let pathPart := afterSlashes.dropWhile (fun x => x ≠ '/')
        match parseAuthority authority with
        | none => none
        | some host => if escapesOk pathPart then some ⟨⟨scheme⟩, ⟨host⟩⟩ else none
      else if escapesOk rest then some ⟨⟨scheme⟩, ""⟩ else none

/-- A model of `url.Parse`, up to the fields `Scheme` and `Host` and the error
return: the fragment is cut off at the first `#`, the rest goes through `parse`,
and the fragment must unescape. -/
def urlParse (rawURL : String) : Option URL :=
  match parseNoFragment (rawURL.data.takeWhile (fun x => x ≠ '#')) with
  | none => none
  | some u =>
    if escapesOk ((rawURL.data.dropWhile (fun x => x ≠ '#')).drop 1) then some u else none

/-! ## The program -/

/-- `getMainDomain`. -/
def getMainDomain (host : String) : String :=
  let parts := Split (TrimPrefix host "www.") '.'
  if parts.length < 2 then ""
  else parts.getD (parts.length - 2) "" ++ "." ++ parts.getD (parts.length - 1) ""

/-- `sameHost`. -/
def sameHost (parse : String → Option URL) (url1 url2 : String) : Bool :=
  match parse url1 with
  | none => false
  | some parsedURL1 =>
    match parse url2 with
    | none => false
    | some parsedURL2 => getMainDomain parsedURL1.Host = getMainDomain parsedURL2.Host

/-- `makeAbsoluteURL`; `none` is the error return. -/
def makeAbsoluteURL (parse : String → Option URL) (relativeURL incomingURL : String) :
    Option String :=
  if HasPrefix relativeURL "http://" || HasPrefix relativeURL "https://" then some relativeURL
  else
    match parse incomingURL with
    | none => none
    | some base => some (Clean (base.Scheme ++ "://" ++ base.Host ++ relativeURL))

/-- The package-level variables `links` and `visited`, and the trace of GET
requests. -/
structure State where
  links : List String
  visited : String → Bool
  fetched : List String

/-- The state at process start: `make([]string, 0)`, `make(map[string]bool)`, and
no request made. -/
def State.empty : State := ⟨[], fun _ => false, []⟩

/-- The two assignments `visited[absoluteURL] = true` and
`links = append(links, absoluteURL)`. -/
def State.record (s : State) (absoluteURL : String) : State :=
  { links := s.links ++ [absoluteURL]
    visited := fun k => if k = absoluteURL then true else s.visited k
    fetched := s.fetched }

/-- The call `http.Get(baseURL)`, noted in the trace. -/
def State.get (s : State) (baseURL : String) : State :=
  { s with fetched := s.fetched ++ [baseURL] }

/-- The body of `for _, attr := range token.Attr` for one `href` value `link`
found on the page being read; `recur` is the recursive call of `crawl`. -/
def processHref (parse : String → Option URL) (recur : String → Int → State → State)
    (rootURL : String) (depth : Int) (s : State) (link : String) : State :=
  match makeAbsoluteURL parse link rootURL with
  | none => s
  | some absoluteURL =>
    if sameHost parse absoluteURL rootURL then
      if s.visited absoluteURL = false then
        let s1 := s.record absoluteURL
        if depth - 1 > 0 then recur absoluteURL (depth - 1) s1 else s1
      else s
    else s

/-- The function `crawl` with a bound `fuel` on the nesting of its calls. -/
def crawlFuel (parse : String → Option URL) (site : String → Option (List String))
    (rootURL : String) : Nat → String → Int → State → State
  | 0, _, _, s => s
  | fuel + 1, baseURL, depth, s =>
    if depth < 0 then s
    else
      let s0 := s.get baseURL
      match site baseURL with
      | none => s0
      | some hrefs =>
        hrefs.foldl (processHref parse (crawlFuel parse site rootURL fuel) rootURL depth) s0

/-- `crawl`: a call at depth `d` nests at most `d` calls deep, so `d + 1` levels
of fuel are never used up (`crawlFuel_enough`). -/
def crawl (parse : String → Option URL) (site : String → Option (List String))
    (rootURL baseURL : String) (depth : Int) (s : State) : State :=
  crawlFuel parse site rootURL (depth.toNat + 1) baseURL depth s

/-- What a call of `CrawlWebpage` gives back: the returned slice (`nil` is the
empty list), the returned error, and the state it leaves behind. -/
structure Outcome where
  result : List String
  err : Option String
  state : State

/-- `CrawlWebpage`. -/
def CrawlWebpage (parse : String → Option URL) (site : String → Option (List String))
    (rootURL : String) (maxDepth : Int) (s : State) : Outcome :=
  if rootURL = "" then ⟨[], some "rootURL cannot be empty", s⟩
  else
    let s1 := crawl parse site rootURL rootURL maxDepth s
    let sorted := sortStrings s1.links
    ⟨sorted, none, { s1 with links := sorted }⟩

/-! ## Predicates and example sites used in the statements -/

/-- The links are pairwise distinct and each of them is marked visited. -/
def LinksVisited (s : State) : Prop :=
  s.links.Nodup ∧ ∀ u ∈ s.links, s.visited u = true

/-- Every link recorded in the state resolved from an `href` of a page that was
requested and fetched. -/
def LinksFromHrefs (parse : String → Option URL) (site : String → Option (List String))
    (rootURL : String) (s : State) : Prop :=
  ∀ u ∈ s.links, ∃ page hrefs link, page ∈ s.fetched ∧ site page = some hrefs ∧ link ∈ hrefs ∧
    makeAbsoluteURL parse link rootURL = some u

/-- The trace of requests is the root followed by distinct recorded links. -/
def TraceShape (rootURL : String) (s : State) : Prop :=
  ∃ t, s.fetched = rootURL :: t ∧ t.Nodup ∧ (∀ u ∈ t, u ∈ s.links) ∧ LinksVisited s

/-- The domain-match key in the words of the specification: strip one leading
`www.`, split on `.`, and join the last two labels with `.`; the empty string
when fewer than two labels remain. -/
def domainMatchKey (host : String) : String :=
  match (Split (TrimPrefix host "www.") '.').reverse with
  | last :: secondLast :: _ => secondLast ++ "." ++ last
  | _ => ""

/-- A site of three pages: the root links to a second page, to a relative path
and to itself; the second page links back to the root and to a page that does
not load. -/
def demoSite : String → Option (List String) := fun u =>
  if u = "http://a.com" then some ["http://a.com/b", "/c", "http://a.com"]
  else if u = "http://a.com/b" then some ["http://a.com", "http://a.com/d"]
  else none

/-- The site of two pages that link to each other. -/
def cycleSite : String → Option (List String) := fun u =>
  if u = "http://a.com/" then some ["http://a.com/b"]
  else if u = "http://a.com/b" then some ["http://a.com/"]
  else none

/-- A root page whose only anchor has the relative `href` `/mypath`. -/
def relativeSite : String → Option (List String) := fun u =>
  if u = "http://mysite.com" then some ["/mypath"] else none

/-- The visited set holds exactly the recorded links. -/
def VisitedIffLinks (s : State) : Prop :=
  ∀ u, s.visited u = true ↔ u ∈ s.links

/-- The site `site` with the page at `P` replaced by a page that loads and has
no anchors. -/
def withEmptyPage (site : String → Option (List String)) (P : String) :
    String → Option (List String) := fun u =>
  if u = P then some [] else site u

/-- A root with two links, the first to a page that does not load, the second
to a page with one link. -/
def brokenLinkSite : String → Option (List String) := fun u =>
  if u = "http://s.com/" then some ["http://s.com/p", "http://s.com/q"]
  else if u = "http://s.com/q" then some ["http://s.com/z"]
  else none

/-- The root links to `a` and `x`, `a` to `p`, `p` to `x`, and `x` to `y`. -/
def detourSite : String → Option (List String) := fun u =>
  if u = "http://s.com/" then some ["http://s.com/a", "http://s.com/x"]
  else if u = "http://s.com/a" then some ["http://s.com/p"]
  else if u = "http://s.com/p" then some ["http://s.com/x"]
  else if u = "http://s.com/x" then some ["http://s.com/y"]
  else none

/-- An edge of the link graph of a crawl from `rootURL` that made the requests
`fetched`: `page` was requested and loaded, and one of its `href` values
resolves to `target`, which passes `sameHost` against the root. -/
def LinkEdge (parse : String → Option URL) (site : String → Option (List String))
    (rootURL : String) (fetched : List String) (page target : String) : Prop :=
  page ∈ fetched ∧ ∃ hrefs link, site page = some hrefs ∧ link ∈ hrefs ∧
    makeAbsoluteURL parse link rootURL = some target ∧ sameHost parse target rootURL = true

/-- `LinkChain parse site rootURL fetched n u`: a chain of `n` edges of the link
graph leads from the root to `u`. -/
inductive LinkChain (parse : String → Option URL) (site : String → Option (List String))
    (rootURL : String) (fetched : List String) : Nat → String → Prop
  | root : LinkChain parse site rootURL fetched 0 rootURL
  | step {n : Nat} {page target : String} :
      LinkChain parse site rootURL fetched n page →
      LinkEdge parse site rootURL fetched page target →
      LinkChain parse site rootURL fetched (n + 1) target

/-- Every recorded link lies at a chain length between 1 and `B`, and every
requested page other than the root at a chain length between 1 and `D - 1`, in
the link graph of the requests made so far. -/
def WithinDepth (parse : String → Option URL) (site : String → Option (List String))
    (rootURL : String) (B D : Int) (s : State) : Prop :=
  (∀ u ∈ s.links, ∃ n : Nat, 1 ≤ n ∧ (n : Int) ≤ B ∧
      LinkChain parse site rootURL s.fetched n u) ∧
    ∀ p ∈ s.fetched, p ≠ rootURL →
      ∃ n : Nat, 1 ≤ n ∧ (n : Int) ≤ D - 1 ∧ LinkChain parse site rootURL s.fetched n p

/-- Two neighbouring characters are not both `/`. -/
def NotBothSlash (a b : Char) : Prop := ¬ (a = '/' ∧ b = '/')

/-- The invariant of the loop of `path.Clean` on the buffer `out` (held reversed)
and the mark `dotdot`: no two neighbouring slashes; the buffer ends in a slash
only when it is the single slash of a rooted path; and the first `dotdot`
characters written, `pre`, end in a slash only in that same case. -/
def CleanInv (rooted : Bool) (out : List Char) (dotdot : Nat) : Prop :=
  List.Chain' NotBothSlash out ∧
    (out.head? = some '/' → rooted = true ∧ out = ['/']) ∧
    ∃ suf pre, out = suf ++ pre ∧ pre.length = dotdot ∧
      (pre.head? = some '/' → rooted = true ∧ pre = ['/'])

/-! ## The order of the result -/

theorem char_lt_iff (a b : Char) : a < b ↔ a.toNat < b.toNat := Iff.rfl

theorem char_toNat_inj (a b : Char) (h : a.toNat = b.toNat) : a = b :=
  Char.ext (UInt32.ext h)

/-- The comparison `lessChars` is the lexicographic order of character lists. -/
theorem lessChars_iff : ∀ a b : List Char, lessChars a b = true ↔ a < b
  | _, [] => by
    simp [lessChars]
  | [], b :: bs => by
    simp [lessChars, List.nil_lt_cons]
  | a :: as, b :: bs => by
    have ih := lessChars_iff as bs
    unfold lessChars
    by_cases h1 : a.toNat < b.toNat
    · simp only [h1, if_true, true_iff]
      exact List.Lex.rel ((char_lt_iff a b).2 h1)
    · by_cases h2 : b.toNat < a.toNat
      · simp only [h1, h2, if_false, if_true]
        constructor
        · intro h; cases h
        · intro h
          have hba : b :: bs < a :: as := List.Lex.rel ((char_lt_iff b a).2 h2)
          exact absurd h (lt_asymm hba)
      · have hab : a = b := char_toNat_inj a b (by omega)
        subst hab
        simp only [h1, if_false]
        rw [ih]
        exact (List.Lex.cons_iff).symm

/-- The comparison `stringLess` is the order `<` of strings. -/
theorem stringLess_iff (a b : String) : stringLess a b = true ↔ a < b := by
  rw [String.lt_iff_toList_lt]
  exact lessChars_iff a.data b.data

theorem stringLe_iff (a b : String) : stringLe a b ↔ a ≤ b := by
  unfold stringLe
  rw [← not_lt, ← stringLess_iff]
  simp

theorem sortStrings_perm (l : List String) : (sortStrings l).Perm l :=
  List.perm_insertionSort _ _

theorem mem_sortStrings (l : List String) (u : String) : u ∈ sortStrings l ↔ u ∈ l :=
  (sortStrings_perm l).mem_iff

theorem sortStrings_sorted (l : List String) : List.Pairwise (fun a b => a ≤ b) (sortStrings l) := by
  haveI : IsTotal String stringLe := ⟨fun a b => by
    simp only [stringLe_iff]; exact le_total a b⟩
  haveI : IsTrans String stringLe := ⟨fun a b c => by
    simp only [stringLe_iff]; exact le_trans⟩
  have h : List.Sorted stringLe (sortStrings l) := List.sorted_insertionSort _ _
  exact List.Pairwise.imp (fun hab => (stringLe_iff _ _).1 hab) h

/-- Sorting a slice without repetition gives a strictly ascending slice. -/
theorem sortStrings_strict (l : List String) (h : l.Nodup) :
    List.Pairwise (fun a b => a < b) (sortStrings l) := by
  have hnd : (sortStrings l).Nodup := (sortStrings_perm l).nodup_iff.2 h
  have hs := sortStrings_sorted l
  have hboth := hs.and hnd
  exact List.Pairwise.imp (fun hab => lt_of_le_of_ne hab.1 hab.2) hboth

/-! ## Invariants of the crawl -/

section Invariants

variable (parse : String → Option URL) (site : String → Option (List String))

theorem mem_fetched_get (s : State) (baseURL : String) : baseURL ∈ (s.get baseURL).fetched := by
  simp [State.get]

theorem mem_fetched_get_of_mem (s : State) (baseURL x : String) (h : x ∈ s.fetched) :
    x ∈ (s.get baseURL).fetched := by
  simp [State.get, h]

/-- One `href` leaves the trace of requests in place when the recursive call does. -/
theorem processHref_fetched_mono (recur : String → Int → State → State) (rootURL : String)
    (depth : Int) (x : String)
    (hrecur : ∀ (u : String) (d : Int) (s : State), x ∈ s.fetched → x ∈ (recur u d s).fetched)
    (s : State) (link : String) (hx : x ∈ s.fetched) :
    x ∈ (processHref parse recur rootURL depth s link).fetched := by
  unfold processHref
  split
  · exact hx
  · split
    · split
      · split
        · exact hrecur _ _ _ hx
        · exact hx
      · exact hx
    · exact hx

theorem foldl_processHref_fetched_mono (recur : String → Int → State → State)
    (rootURL : String) (depth : Int) (x : String)
    (hrecur : ∀ (u : String) (d : Int) (s : State), x ∈ s.fetched → x ∈ (recur u d s).fetched) :
    ∀ (hrefs : List String) (s : State), x ∈ s.fetched →
      x ∈ (hrefs.foldl (processHref parse recur rootURL depth) s).fetched
  | [], _, hx => hx
  | link :: rest, s, hx => by
    rw [List.foldl_cons]
    exact foldl_processHref_fetched_mono recur rootURL depth x hrecur rest _
      (processHref_fetched_mono parse recur rootURL depth x hrecur s link hx)

/-- A request once made stays in the trace. -/
theorem crawlFuel_fetched_mono (rootURL : String) (x : String) :
    ∀ (fuel : Nat) (baseURL : String) (depth : Int) (s : State),
      x ∈ s.fetched → x ∈ (crawlFuel parse site rootURL fuel baseURL depth s).fetched
  | 0, _, _, _, hx => by simpa [crawlFuel] using hx
  | fuel + 1, baseURL, depth, s, hx => by
    unfold crawlFuel
    split
    · exact hx
    · cases hsite : site baseURL with
      | none => exact mem_fetched_get_of_mem s baseURL x hx
      | some hrefs =>
        exact foldl_processHref_fetched_mono parse _ rootURL depth x
          (crawlFuel_fetched_mono rootURL x fuel) hrefs _
          (mem_fetched_get_of_mem s baseURL x hx)

/-- Induction over a crawl.  A property of the state that holds before the
links of a fetched page are processed holds afterwards, when it is kept by the
two things the loop does to the state: recording a link that resolved from an
`href` of a fetched page, passed `sameHost` and was not yet visited, and
recording such a link and then requesting it. -/
theorem foldl_processHref_inv (rootURL : String) (P : State → Prop)
    (hrecord : ∀ (s : State) (page : String) (hrefs : List String) (link absoluteURL : String),
      P s → page ∈ s.fetched → site page = some hrefs → link ∈ hrefs →
      makeAbsoluteURL parse link rootURL = some absoluteURL →
      sameHost parse absoluteURL rootURL = true → s.visited absoluteURL = false →
      P (s.record absoluteURL))
    (hget : ∀ (s : State) (page : String) (hrefs : List String) (link absoluteURL : String),
      P s → page ∈ s.fetched → site page = some hrefs → link ∈ hrefs →
      makeAbsoluteURL parse link rootURL = some absoluteURL →
      sameHost parse absoluteURL rootURL = true → s.visited absoluteURL = false →
      P ((s.record absoluteURL).get absoluteURL)) :
    ∀ (fuel : Nat) (depth : Int) (page : String) (all hrefs : List String) (s : State),
      site page = some all → (∀ l ∈ hrefs, l ∈ all) → page ∈ s.fetched → P s →
      P (hrefs.foldl (processHref parse (crawlFuel parse site rootURL fuel) rootURL depth) s) := by
  intro fuel
  induction fuel with
  | zero =>
    intro depth page all hrefs
    induction hrefs with
    | nil => intro s _ _ _ hP; exact hP
    | cons link rest ih =>
      intro s hpage hsub hfetched hP
      rw [List.foldl_cons]
      apply ih _ hpage (fun l hl => hsub l (List.mem_cons_of_mem _ hl))
      · exact processHref_fetched_mono parse _ rootURL depth page
          (crawlFuel_fetched_mono parse site rootURL page 0) s link hfetched
      unfold processHref
      split
      · exact hP
      · rename_i absoluteURL habs
        split
        · rename_i hsame
          split
          · rename_i hvis
            have h1 := hrecord s page all link absoluteURL hP hfetched hpage
              (hsub link (List.mem_cons_self _ _)) habs hsame hvis
            split
            · simpa [crawlFuel] using h1
            · exact h1
          · exact hP
        · exact hP
  | succ fuel ihf =>
    intro depth page all hrefs
    induction hrefs with
    | nil => intro s _ _ _ hP; exact hP
    | cons link rest ih =>
      intro s hpage hsub hfetched hP
      rw [List.foldl_cons]
      apply ih _ hpage (fun l hl => hsub l (List.mem_cons_of_mem _ hl))
      · exact processHref_fetched_mono parse _ rootURL depth page
          (crawlFuel_fetched_mono parse site rootURL page (fuel + 1)) s link hfetched
      unfold processHref
      split
      · exact hP
      · rename_i absoluteURL habs
        split
        · rename_i hsame
          split
          · rename_i hvis
            have hin := hsub link (List.mem_cons_self _ _)
            split
            · rename_i hdepth
              have h2 := hget s page all link absoluteURL hP hfetched hpage hin habs hsame hvis
              have hnot : ¬ (depth - 1 < 0) := by omega
              simp only [crawlFuel, hnot, if_false]
              cases hsite : site absoluteURL with
              | none => exact h2
              | some hrefs2 =>
                exact ihf (depth - 1) absoluteURL hrefs2 hrefs2 _ hsite (fun l hl => hl)
                  (mem_fetched_get _ _) h2
            · exact hrecord s page all link absoluteURL hP hfetched hpage hin habs hsame hvis
          · exact hP
        · exact hP

/-- A call of `crawl` at a negative depth returns at once. -/
theorem crawl_neg (rootURL baseURL : String) (depth : Int) (s : State) (h : depth < 0) :
    crawl parse site rootURL baseURL depth s = s := by
  simp [crawl, crawlFuel, h]

/-- The induction for a whole call of `crawl` at a depth that is not negative:
the property is asked of the state in which the request of `baseURL` has been
noted. -/
theorem crawl_inv (rootURL : String) (P : State → Prop)
    (hrecord : ∀ (s : State) (page : String) (hrefs : List String) (link absoluteURL : String),
      P s → page ∈ s.fetched → site page = some hrefs → link ∈ hrefs →
      makeAbsoluteURL parse link rootURL = some absoluteURL →
      sameHost parse absoluteURL rootURL = true → s.visited absoluteURL = false →
      P (s.record absoluteURL))
    (hget : ∀ (s : State) (page : String) (hrefs : List String) (link absoluteURL : String),
      P s → page ∈ s.fetched → site page = some hrefs → link ∈ hrefs →
      makeAbsoluteURL parse link rootURL = some absoluteURL →
      sameHost parse absoluteURL rootURL = true → s.visited absoluteURL = false →
      P ((s.record absoluteURL).get absoluteURL))
    (baseURL : String) (depth : Int) (s : State) (hd : 0 ≤ depth)
    (h1 : P (s.get baseURL)) :
    P (crawl parse site rootURL baseURL depth s) := by
  unfold crawl crawlFuel
  have hnot : ¬ (depth < 0) := by omega
  simp only [hnot, if_false]
  cases hsite : site baseURL with
  | none => exact h1
  | some hrefs =>
    exact foldl_processHref_inv parse site rootURL P hrecord hget _ depth baseURL hrefs
      hrefs _ hsite (fun l hl => hl) (mem_fetched_get _ _) h1

/-- The induction for a property that does not look at the trace of requests. -/
theorem crawl_inv_links (rootURL : String) (P : State → Prop)
    (hrecord : ∀ (s : State) (page : String) (hrefs : List String) (link absoluteURL : String),
      P s → page ∈ s.fetched → site page = some hrefs → link ∈ hrefs →
      makeAbsoluteURL parse link rootURL = some absoluteURL →
      sameHost parse absoluteURL rootURL = true → s.visited absoluteURL = false →
      P (s.record absoluteURL))
    (hget : ∀ (s : State) (u : String), P s → P (s.get u))
    (baseURL : String) (depth : Int) (s : State) (h0 : P s) :
    P (crawl parse site rootURL baseURL depth s) := by
  by_cases hd : depth < 0
  · rw [crawl_neg parse site rootURL baseURL depth s hd]; exact h0
  · exact crawl_inv parse site rootURL P hrecord
      (fun s page hrefs link absoluteURL hP hf hs hl ha hsame hv =>
        hget _ _ (hrecord s page hrefs link absoluteURL hP hf hs hl ha hsame hv))
      baseURL depth s (by omega) (hget s baseURL h0)

theorem linksVisited_record (s : State) (u : String) (h : LinksVisited s)
    (hu : s.visited u = false) : LinksVisited (s.record u) := by
  obtain ⟨hnd, hv⟩ := h
  have hnot : u ∉ s.links := fun hmem => by simp [hv u hmem] at hu
  refine ⟨?_, ?_⟩
  · simp only [State.record]
    exact List.Nodup.append hnd (List.nodup_singleton u) (by simpa using hnot)
  · intro w hw
    simp only [State.record, List.mem_append, List.mem_singleton] at hw ⊢
    by_cases hwu : w = u
    · simp [hwu]
    · simp only [hwu, if_false]
      rcases hw with hw | hw
      · exact hv w hw
      · exact absurd hw hwu

theorem crawl_linksVisited (rootURL baseURL : String) (depth : Int) (s : State)
    (h : LinksVisited s) : LinksVisited (crawl parse site rootURL baseURL depth s) :=
  crawl_inv_links parse site rootURL LinksVisited
    (fun s _ _ _ u hP _ _ _ _ _ hv => linksVisited_record s u hP hv)
    (fun _ _ hP => hP) baseURL depth s h

theorem linksVisited_empty : LinksVisited State.empty :=
  ⟨List.nodup_nil, fun _ hu => by simp [State.empty] at hu⟩

end Invariants

section Helpers

variable (parse : String → Option URL) (site : String → Option (List String))

theorem sameHost_iff (url1 url2 : String) :
    sameHost parse url1 url2 = true ↔
      ∃ p1 p2, parse url1 = some p1 ∧ parse url2 = some p2 ∧
        getMainDomain p1.Host = getMainDomain p2.Host := by
  unfold sameHost
  cases h1 : parse url1 with
  | none => simp
  | some p1 =>
    cases h2 : parse url2 with
    | none => simp
    | some p2 => simp

theorem sameHost_self_of_right (url1 url2 : String) (h : sameHost parse url1 url2 = true) :
    sameHost parse url2 url2 = true := by
  obtain ⟨p1, p2, _, h2, _⟩ := (sameHost_iff parse url1 url2).1 h
  exact (sameHost_iff parse url2 url2).2 ⟨p2, p2, h2, h2, rfl⟩

theorem makeAbsoluteURL_absolute (relativeURL incomingURL : String)
    (h : HasPrefix relativeURL "http://" = true ∨ HasPrefix relativeURL "https://" = true) :
    makeAbsoluteURL parse relativeURL incomingURL = some relativeURL := by
  unfold makeAbsoluteURL
  rcases h with h | h <;> simp [h]

theorem crawl_sameHost (rootURL baseURL : String) (depth : Int) (s : State)
    (h : ∀ u ∈ s.links, sameHost parse u rootURL = true) :
    ∀ u ∈ (crawl parse site rootURL baseURL depth s).links, sameHost parse u rootURL = true :=
  crawl_inv_links parse site rootURL (fun s => ∀ u ∈ s.links, sameHost parse u rootURL = true)
    (fun s _ _ _ a hP _ _ _ _ hsame _ u hu => by
      simp only [State.record, List.mem_append, List.mem_singleton] at hu
      rcases hu with hu | hu
      · exact hP u hu
      · rw [hu]; exact hsame)
    (fun _ _ hP => hP) baseURL depth s h

theorem crawl_linksFromHrefs (rootURL baseURL : String) (depth : Int) (s : State)
    (h : LinksFromHrefs parse site rootURL s) :
    LinksFromHrefs parse site rootURL (crawl parse site rootURL baseURL depth s) :=
  crawl_inv_links parse site rootURL (LinksFromHrefs parse site rootURL)
    (fun s page hrefs link a hP hf hs hl ha _ _ u hu => by
      simp only [State.record, List.mem_append, List.mem_singleton] at hu
      rcases hu with hu | hu
      · exact hP u hu
      · exact ⟨page, hrefs, link, hf, hs, hl, by rw [hu]; exact ha⟩)
    (fun s b hP u hu => by
      obtain ⟨page, hrefs, link, hf, hrest⟩ := hP u hu
      exact ⟨page, hrefs, link, mem_fetched_get_of_mem s b page hf, hrest⟩)
    baseURL depth s h

theorem crawl_links_mono (rootURL baseURL : String) (depth : Int) (s : State) :
    ∀ u ∈ s.links, u ∈ (crawl parse site rootURL baseURL depth s).links :=
  crawl_inv_links parse site rootURL (fun t => ∀ u ∈ s.links, u ∈ t.links)
    (fun t _ _ _ a hP _ _ _ _ _ _ u hu => by
      simp only [State.record, List.mem_append, List.mem_singleton]
      exact Or.inl (hP u hu))
    (fun _ _ hP => hP) baseURL depth s (fun _ hu => hu)

theorem traceShape_record (rootURL : String) (s : State) (u : String)
    (h : TraceShape rootURL s) (hu : s.visited u = false) :
    TraceShape rootURL (s.record u) := by
  obtain ⟨t, hf, hnd, hsub, hlv⟩ := h
  refine ⟨t, hf, hnd, ?_, linksVisited_record s u hlv hu⟩
  intro w hw
  simp only [State.record, List.mem_append, List.mem_singleton]
  exact Or.inl (hsub w hw)

theorem traceShape_record_get (rootURL : String) (s : State) (u : String)
    (h : TraceShape rootURL s) (hu : s.visited u = false) :
    TraceShape rootURL ((s.record u).get u) := by
  obtain ⟨t, hf, hnd, hsub, hlv⟩ := h
  have hnot : u ∉ s.links := fun hmem => by simp [hlv.2 u hmem] at hu
  have hnt : u ∉ t := fun hmem => hnot (hsub u hmem)
  refine ⟨t ++ [u], ?_, ?_, ?_, linksVisited_record s u hlv hu⟩
  · simp [State.get, State.record, hf]
  · exact List.Nodup.append hnd (List.nodup_singleton u) (by simpa using hnt)
  · intro w hw
    simp only [State.get, State.record, List.mem_append, List.mem_singleton] at hw ⊢
    rcases hw with hw | hw
    · exact Or.inl (hsub w hw)
    · exact Or.inr hw

theorem crawl_traceShape (rootURL : String) (depth : Int) (hd : 0 ≤ depth) :
    TraceShape rootURL (crawl parse site rootURL rootURL depth State.empty) :=
  crawl_inv parse site rootURL (TraceShape rootURL)
    (fun s _ _ _ a hP _ _ _ _ _ hv => traceShape_record rootURL s a hP hv)
    (fun s _ _ _ a hP _ _ _ _ _ hv => traceShape_record_get rootURL s a hP hv)
    rootURL depth State.empty hd
    ⟨[], by simp [State.get, State.empty], List.nodup_nil, fun _ hu => by simp at hu,
      by simpa [LinksVisited, State.get] using linksVisited_empty⟩

end Helpers

/-! ## Fuel -/

/-- The loop of `path.Clean` gives the same buffer for every amount of fuel that
covers the characters still to be read: `Clean` never stops for lack of fuel. -/
theorem cleanLoop_fuel (rooted : Bool) :
    ∀ (f1 f2 : Nat) (rest out : List Char) (dotdot : Nat),
      rest.length ≤ f1 → rest.length ≤ f2 →
      cleanLoop rooted f1 rest out dotdot = cleanLoop rooted f2 rest out dotdot := by
  intro f1
  induction f1 with
  | zero =>
    intro f2 rest out dotdot h1 _
    have hr : rest = [] := List.length_eq_zero.1 (Nat.le_zero.1 h1)
    subst hr
    cases f2 <;> simp [cleanLoop]
  | succ n ih =>
    intro f2 rest out dotdot h1 h2
    cases f2 with
    | zero =>
      have hr : rest = [] := List.length_eq_zero.1 (Nat.le_zero.1 h2)
      subst hr
      simp [cleanLoop]
    | succ m =>
      cases rest with
      | nil => simp [cleanLoop]
      | cons c r1 =>
        have hn : r1.length ≤ n := by simpa using h1
        have hm : r1.length ≤ m := by simpa using h2
        have htn : r1.tail.length ≤ n := by simp; omega
        have htm : r1.tail.length ≤ m := by simp; omega
        have hd : ∀ hc : ¬ c = '/',
            ((c :: r1).dropWhile (fun x => decide (x ≠ '/'))).length ≤ r1.length := by
          intro hc
          rw [List.dropWhile_cons_of_pos (by simpa using hc)]
          exact (List.dropWhile_sublist _).length_le
        simp only [cleanLoop]
        split_ifs with hc1
        all_goals first
          | exact ih m _ _ _ hn hm
          | exact ih m _ _ _ htn htm
          | exact ih m _ _ _ (le_trans (hd hc1) hn) (le_trans (hd hc1) hm)

section Fuel
variable (parse : String → Option URL) (site : String → Option (List String))

theorem processHref_congr (r1 r2 : String → Int → State → State) (rootURL : String)
    (depth : Int) (h : ∀ u s, depth - 1 > 0 → r1 u (depth - 1) s = r2 u (depth - 1) s)
    (s : State) (link : String) :
    processHref parse r1 rootURL depth s link = processHref parse r2 rootURL depth s link := by
  unfold processHref
  split
  · rfl
  · split
    · split
      · split
        · rename_i hd; exact h _ _ hd
        · rfl
      · rfl
    · rfl

theorem foldl_processHref_congr (r1 r2 : String → Int → State → State) (rootURL : String)
    (depth : Int) (h : ∀ u s, depth - 1 > 0 → r1 u (depth - 1) s = r2 u (depth - 1) s) :
    ∀ (hrefs : List String) (s : State),
      hrefs.foldl (processHref parse r1 rootURL depth) s =
        hrefs.foldl (processHref parse r2 rootURL depth) s
  | [], _ => rfl
  | link :: rest, s => by
    rw [List.foldl_cons, List.foldl_cons, processHref_congr parse r1 r2 rootURL depth h s link]
    exact foldl_processHref_congr r1 r2 rootURL depth h rest _

/-- Fuel beyond `depth + 1` levels changes nothing: `crawl` never stops for lack
of fuel. -/
theorem crawlFuel_enough (rootURL : String) :
    ∀ (fuel : Nat) (baseURL : String) (depth : Int) (s : State), depth.toNat < fuel →
      crawlFuel parse site rootURL fuel baseURL depth s =
        crawl parse site rootURL baseURL depth s := by
  intro fuel
  induction fuel with
  | zero => intro _ _ _ h; omega
  | succ n ih =>
    intro baseURL depth s hlt
    unfold crawl crawlFuel
    split
    · rfl
    · cases hsite : site baseURL with
      | none => rfl
      | some hrefs =>
        apply foldl_processHref_congr
        intro u s1 hd
        have e : depth.toNat = (depth - 1).toNat + 1 := by omega
        rw [ih u (depth - 1) s1 (by omega), e]
        rfl

end Fuel

/-! ## The domain-match key -/

theorem lastTwo_eq (l : List String) :
    (if l.length < 2 then "" else l.getD (l.length - 2) "" ++ "." ++ l.getD (l.length - 1) "") =
      (match l.reverse with
        | last :: secondLast :: _ => secondLast ++ "." ++ last
        | _ => "") := by
  obtain ⟨r, hr⟩ : ∃ r, l = r.reverse := ⟨l.reverse, (List.reverse_reverse l).symm⟩
  subst hr
  rw [List.reverse_reverse]
  match r with
  | [] => simp
  | [b] => simp
  | b :: a :: r2 =>
    simp only [List.reverse_cons, List.append_assoc, List.singleton_append, List.length_append,
      List.length_reverse, List.length_cons, List.length_nil]
    have h1 : ¬ (r2.length + (0 + 1 + 1) < 2) := by omega
    have e1 : r2.length + (0 + 1 + 1) - 2 = r2.reverse.length := by simp
    have e2 : r2.length + (0 + 1 + 1) - 1 = r2.reverse.length + 1 := by simp
    rw [if_neg h1, e1, e2, List.getD_append_right _ _ _ _ (le_refl _),
      List.getD_append_right _ _ _ _ (Nat.le_succ _)]
    simp

/-- The index arithmetic of `getMainDomain` picks the last two labels. -/
theorem getMainDomain_eq_domainMatchKey (host : String) :
    getMainDomain host = domainMatchKey host := by
  unfold getMainDomain domainMatchKey
  exact lastTwo_eq _

theorem splitChars_ne_nil (sep : Char) : ∀ cs : List Char, splitChars sep cs ≠ []
  | [] => by simp [splitChars]
  | c :: cs => by
    unfold splitChars
    split
    · simp
    · split <;> simp

theorem splitChars_cons_ne (sep c : Char) (cs : List Char) (h : c ≠ sep) :
    ∃ p ps, splitChars sep cs = p :: ps ∧ splitChars sep (c :: cs) = (c :: p) :: ps := by
  cases hs : splitChars sep cs with
  | nil => exact absurd hs (splitChars_ne_nil sep cs)
  | cons p ps => exact ⟨p, ps, rfl, by simp [splitChars, h, hs]⟩

theorem two_le_length_splitChars (sep : Char) :
    ∀ cs : List Char, sep ∈ cs → 2 ≤ (splitChars sep cs).length
  | [], h => by simp at h
  | c :: cs, h => by
    by_cases hc : c = sep
    · have hne := splitChars_ne_nil sep cs
      have : 1 ≤ (splitChars sep cs).length := List.length_pos.2 hne
      simp only [splitChars, hc, if_true, List.length_cons]
      omega
    · obtain ⟨p, ps, h1, h2⟩ := splitChars_cons_ne sep c cs hc
      have hmem : sep ∈ cs := by
        rcases List.mem_cons.1 h with h | h
        · exact absurd h.symm hc
        · exact h
      have ih := two_le_length_splitChars sep cs hmem
      rw [h2]; rw [h1] at ih; simpa using ih

theorem hasPrefix_append (pre s : String) : HasPrefix (pre ++ s) pre = true := by
  simp [HasPrefix, String.data_append]

theorem trimPrefix_append (pre s : String) : TrimPrefix (pre ++ s) pre = s := by
  unfold TrimPrefix
  rw [if_pos (hasPrefix_append pre s)]
  simp [String.data_append]

theorem getMainDomain_www_of_not_prefix (h : String) (hh : HasPrefix h "www." = false) :
    getMainDomain ("www." ++ h) = getMainDomain h := by
  unfold getMainDomain
  rw [trimPrefix_append]
  have hsame : TrimPrefix h "www." = h := by simp [TrimPrefix, hh]
  rw [hsame]

theorem lastTwo_cons (x : String) (l : List String) (hl : 2 ≤ l.length) :
    (match (x :: l).reverse with
      | last :: secondLast :: _ => secondLast ++ "." ++ last
      | _ => "") =
    (match l.reverse with
      | last :: secondLast :: _ => secondLast ++ "." ++ last
      | _ => "") := by
  rw [List.reverse_cons]
  have hlen : 2 ≤ l.reverse.length := by simpa using hl
  match hr : l.reverse, hlen with
  | b :: a :: r2, _ => simp

theorem splitChars_www (t : List Char) :
    splitChars '.' ('w' :: 'w' :: 'w' :: '.' :: t) = ['w', 'w', 'w'] :: splitChars '.' t := by
  simp [splitChars]

theorem getMainDomain_www_of_dot (h : String) (hp : HasPrefix h "www." = true)
    (hdot : '.' ∈ (TrimPrefix h "www.").data) :
    getMainDomain ("www." ++ h) = getMainDomain h := by
  rw [getMainDomain_eq_domainMatchKey, getMainDomain_eq_domainMatchKey]
  unfold domainMatchKey
  rw [trimPrefix_append]
  have hpre : "www.".data <+: h.data := by
    simpa [HasPrefix, List.isPrefixOf_iff_prefix] using hp
  obtain ⟨t, ht⟩ := hpre
  have hr : TrimPrefix h "www." = ⟨t⟩ := by
    unfold TrimPrefix
    rw [if_pos hp, ← ht]
    simp
  rw [hr] at hdot ⊢
  have hsplit : Split h '.' = "www" :: Split ⟨t⟩ '.' := by
    unfold Split
    rw [← ht]
    show List.map String.mk (splitChars '.' ('w' :: 'w' :: 'w' :: '.' :: t)) = _
    rw [splitChars_www]
    rfl
  rw [hsplit]
  apply lastTwo_cons
  unfold Split
  simpa using two_le_length_splitChars '.' t hdot

/-- Putting `www.` in front of a host keeps its key, unless the host is itself
`www.` followed by a label without a dot. -/
theorem getMainDomain_www (h : String)
    (hh : ¬ (HasPrefix h "www." = true ∧ '.' ∉ (TrimPrefix h "www.").data)) :
    getMainDomain ("www." ++ h) = getMainDomain h := by
  by_cases hp : HasPrefix h "www." = true
  · by_cases hdot : '.' ∈ (TrimPrefix h "www.").data
    · exact getMainDomain_www_of_dot h hp hdot
    · exact absurd ⟨hp, hdot⟩ hh
  · exact getMainDomain_www_of_not_prefix h (by simpa using hp)

/-! ## The site of two pages -/

theorem crawl_two_pages_links (parse : String → Option URL)
    (site : String → Option (List String)) (A B : String) (maxDepth : Int)
    (hA : HasPrefix A "http://" = true ∨ HasPrefix A "https://" = true)
    (hB : HasPrefix B "http://" = true ∨ HasPrefix B "https://" = true)
    (hAB : A ≠ B) (hsame : sameHost parse B A = true)
    (hsiteA : site A = some [B]) (hsiteB : site B = some [A]) (hd : 2 ≤ maxDepth) :
    (crawl parse site A A maxDepth State.empty).links = [B, A] := by
  have hAA := sameHost_self_of_right parse B A hsame
  have hmA := makeAbsoluteURL_absolute parse A A hA
  have hmB := makeAbsoluteURL_absolute parse B A hB
  have hBA : B ≠ A := Ne.symm hAB
  obtain ⟨k, hk⟩ : ∃ k, maxDepth.toNat + 1 = k + 3 := ⟨maxDepth.toNat - 2, by omega⟩
  have h0 : ¬ (maxDepth < 0) := by omega
  have h1 : maxDepth - 1 > 0 := by omega
  have h1n : ¬ (maxDepth - 1 < 0) := by omega
  unfold crawl
  rw [hk]
  by_cases h2 : maxDepth - 1 - 1 > 0
  · have h2n : ¬ (maxDepth - 1 - 1 < 0) := by omega
    simp [crawlFuel, processHref, hsiteA, hsiteB, hmA, hmB, hsame, hAA, State.get, State.record,
      State.empty, h0, h1, h1n, h2, h2n, hAB, hBA]
  · simp [crawlFuel, processHref, hsiteA, hsiteB, hmA, hmB, hsame, hAA, State.get, State.record,
      State.empty, h0, h1, h1n, h2, hAB, hBA]

/-! ## The claims -/

/-- C1. For every site, every non-empty root URL and every depth, the list that
`CrawlWebpage` returns from the empty state is strictly ascending in the
lexicographic order of strings: it is sorted and no URL occurs in it twice. -/
theorem CrawlWebpage_strictly_ascending (parse : String → Option URL)
    (site : String → Option (List String)) (rootURL : String) (maxDepth : Int)
    (hroot : rootURL ≠ "") :
    List.Pairwise (fun a b => a < b)
        (CrawlWebpage parse site rootURL maxDepth State.empty).result ∧
      (CrawlWebpage parse site rootURL maxDepth State.empty).result.Nodup := by
  have hinv := crawl_linksVisited parse site rootURL rootURL maxDepth State.empty
    linksVisited_empty
  have hstrict := sortStrings_strict _ hinv.1
  simp only [CrawlWebpage, hroot, if_false]
  exact ⟨hstrict, (sortStrings_perm _).nodup_iff.2 hinv.1⟩

theorem CrawlWebpage_strictly_ascending_witness :
    "http://a.com" ≠ "" ∧
      List.Pairwise (fun a b => a < b)
        (CrawlWebpage urlParse demoSite "http://a.com" 3 State.empty).result ∧
      (CrawlWebpage urlParse demoSite "http://a.com" 3 State.empty).result.Nodup :=
  ⟨by decide, CrawlWebpage_strictly_ascending urlParse demoSite "http://a.com" 3 (by decide)⟩

/-- C2. The root page `http://mysite.com` has one anchor, with the relative
`href` `/mypath`.  The link resolves to `http:/mysite.com/mypath`, whose parsed
host is empty, so `sameHost` rejects it: at depth 0 and at depth 3 the crawl
requests the root only and returns an empty list, without the URL
`http://mysite.com/mypath`. -/
theorem relative_href_not_recorded :
    makeAbsoluteURL urlParse "/mypath" "http://mysite.com" = some "http:/mysite.com/mypath" ∧
      urlParse "http:/mysite.com/mypath" = some ⟨"http", ""⟩ ∧
      sameHost urlParse "http:/mysite.com/mypath" "http://mysite.com" = false ∧
      (CrawlWebpage urlParse relativeSite "http://mysite.com" 0 State.empty).result = [] ∧
      (CrawlWebpage urlParse relativeSite "http://mysite.com" 3 State.empty).result = [] ∧
      (CrawlWebpage urlParse relativeSite "http://mysite.com" 3 State.empty).state.fetched =
        ["http://mysite.com"] := by
  decide

/-- C3. On the base `http://example.com/x/y`, which parses with scheme `http`
and host `example.com`, the `href` `/about` resolves to
`http:/example.com/about`: `path.Clean` runs over the whole concatenation and
merges the two slashes after the scheme. -/
theorem makeAbsoluteURL_about :
    urlParse "http://example.com/x/y" = some ⟨"http", "example.com"⟩ ∧
      makeAbsoluteURL urlParse "/about" "http://example.com/x/y" =
        some "http:/example.com/about" ∧
      makeAbsoluteURL urlParse "/about" "http://example.com/x/y" ≠
        some ("http" ++ "://" ++ "example.com" ++ "/about") := by
  decide

/-- C4. Every URL in the list that `CrawlWebpage` returns from the empty state
parses, as does the root, and its domain-match key (`getMainDomain` of the
parsed host) is the key of the root. -/
theorem CrawlWebpage_same_domain_key (parse : String → Option URL)
    (site : String → Option (List String)) (rootURL : String) (maxDepth : Int) (u : String)
    (hu : u ∈ (CrawlWebpage parse site rootURL maxDepth State.empty).result) :
    ∃ parsedU parsedRoot, parse u = some parsedU ∧ parse rootURL = some parsedRoot ∧
      getMainDomain parsedU.Host = getMainDomain parsedRoot.Host := by
  by_cases hroot : rootURL = ""
  · simp [CrawlWebpage, hroot] at hu
  · simp only [CrawlWebpage, hroot, if_false, mem_sortStrings] at hu
    exact (sameHost_iff parse u rootURL).1
      (crawl_sameHost parse site rootURL rootURL maxDepth State.empty
        (fun _ h => by simp [State.empty] at h) u hu)

theorem CrawlWebpage_same_domain_key_witness :
    "http://a.com/d" ∈ (CrawlWebpage urlParse demoSite "http://a.com" 3 State.empty).result ∧
      ∃ parsedU parsedRoot, urlParse "http://a.com/d" = some parsedU ∧
        urlParse "http://a.com" = some parsedRoot ∧
        getMainDomain parsedU.Host = getMainDomain parsedRoot.Host :=
  ⟨by decide,
    CrawlWebpage_same_domain_key urlParse demoSite "http://a.com" 3 "http://a.com/d" (by decide)⟩

/-- C5, as stated, fails: on the site of two pages that link to each other the
crawl from `http://a.com/` at depth 2 returns a list that contains the root. -/
theorem root_in_result_counterexample :
    "http://a.com/" ≠ "" ∧
      "http://a.com/" ∈ (CrawlWebpage urlParse cycleSite "http://a.com/" 2 State.empty).result := by
  decide

/-- C5, amended. The root is recorded only as a discovered link: when the list
returned from the empty state contains the root URL, some page that the crawl
requested and fetched has an `href` that `makeAbsoluteURL` resolves to the
root URL. -/
theorem root_in_result_only_if_linked (parse : String → Option URL)
    (site : String → Option (List String)) (rootURL : String) (maxDepth : Int)
    (h : rootURL ∈ (CrawlWebpage parse site rootURL maxDepth State.empty).result) :
    ∃ page hrefs link,
      page ∈ (CrawlWebpage parse site rootURL maxDepth State.empty).state.fetched ∧
      site page = some hrefs ∧ link ∈ hrefs ∧
      makeAbsoluteURL parse link rootURL = some rootURL := by
  by_cases hroot : rootURL = ""
  · simp [CrawlWebpage, hroot] at h
  · simp only [CrawlWebpage, hroot, if_false, mem_sortStrings] at h ⊢
    exact crawl_linksFromHrefs parse site rootURL rootURL maxDepth State.empty
      (fun _ hu => by simp [State.empty] at hu) rootURL h

theorem root_in_result_only_if_linked_witness :
    "http://a.com/" ∈ (CrawlWebpage urlParse cycleSite "http://a.com/" 2 State.empty).result ∧
      ∃ page hrefs link,
        page ∈ (CrawlWebpage urlParse cycleSite "http://a.com/" 2 State.empty).state.fetched ∧
        cycleSite page = some hrefs ∧ link ∈ hrefs ∧
        makeAbsoluteURL urlParse link "http://a.com/" = some "http://a.com/" :=
  ⟨by decide, root_in_result_only_if_linked urlParse cycleSite "http://a.com/" 2 (by decide)⟩

/-- C6, as stated, fails: on the site of two pages that link to each other the
crawl from `http://a.com/` at depth 3 requests the root twice. -/
theorem fetched_twice_counterexample :
    (CrawlWebpage urlParse cycleSite "http://a.com/" 3 State.empty).state.fetched =
        ["http://a.com/", "http://a.com/b", "http://a.com/"] ∧
      ¬ (CrawlWebpage urlParse cycleSite "http://a.com/" 3 State.empty).state.fetched.Nodup := by
  decide

/-- C6, amended. In a crawl from the empty state the sequence of requests is
empty or is the root URL followed by URLs that are pairwise distinct: a URL
other than the root is requested at most once, the root at most twice. -/
theorem fetched_once_except_root (parse : String → Option URL)
    (site : String → Option (List String)) (rootURL : String) (maxDepth : Int) :
    ((CrawlWebpage parse site rootURL maxDepth State.empty).state.fetched = [] ∨
        ∃ t, (CrawlWebpage parse site rootURL maxDepth State.empty).state.fetched = rootURL :: t ∧
          t.Nodup) ∧
      (∀ u, u ≠ rootURL →
        (CrawlWebpage parse site rootURL maxDepth State.empty).state.fetched.count u ≤ 1) ∧
      (CrawlWebpage parse site rootURL maxDepth State.empty).state.fetched.count rootURL ≤ 2 := by
  have key : (CrawlWebpage parse site rootURL maxDepth State.empty).state.fetched = [] ∨
      ∃ t, (CrawlWebpage parse site rootURL maxDepth State.empty).state.fetched = rootURL :: t ∧
        t.Nodup := by
    by_cases hroot : rootURL = ""
    · left; simp [CrawlWebpage, hroot, State.empty]
    · by_cases hd : maxDepth < 0
      · left
        simp [CrawlWebpage, hroot, crawl_neg parse site rootURL rootURL maxDepth _ hd,
          State.empty]
      · right
        obtain ⟨t, hf, hnd, _, _⟩ := crawl_traceShape parse site rootURL maxDepth (by omega)
        exact ⟨t, by simpa [CrawlWebpage, hroot] using hf, hnd⟩
  refine ⟨key, ?_, ?_⟩
  · intro u hu
    rcases key with h | ⟨t, h, hnd⟩
    · simp [h]
    · rw [h, List.count_cons_of_ne hu]
      exact List.nodup_iff_count_le_one.1 hnd u
  · rcases key with h | ⟨t, h, hnd⟩
    · simp [h]
    · rw [h, List.count_cons_self]
      have := List.nodup_iff_count_le_one.1 hnd rootURL
      omega

/-- C7. On a site where page `A` has the single link `B` and page `B` the single
link `A`, both absolute and on the same domain, `CrawlWebpage(A, maxDepth)` with
`maxDepth >= 2` from the empty state returns without error a list of two
entries whose members are exactly `A` and `B`. -/
theorem two_page_cycle (parse : String → Option URL) (site : String → Option (List String))
    (A B : String) (maxDepth : Int)
    (hA : HasPrefix A "http://" = true ∨ HasPrefix A "https://" = true)
    (hB : HasPrefix B "http://" = true ∨ HasPrefix B "https://" = true)
    (hAB : A ≠ B) (hsame : sameHost parse B A = true)
    (hsiteA : site A = some [B]) (hsiteB : site B = some [A]) (hd : 2 ≤ maxDepth) :
    (CrawlWebpage parse site A maxDepth State.empty).err = none ∧
      (CrawlWebpage parse site A maxDepth State.empty).result.length = 2 ∧
      ∀ u, u ∈ (CrawlWebpage parse site A maxDepth State.empty).result ↔ u = A ∨ u = B := by
  have hne : A ≠ "" := by
    intro h
    rw [h] at hA
    revert hA
    decide
  have hlinks := crawl_two_pages_links parse site A B maxDepth hA hB hAB hsame hsiteA hsiteB hd
  simp only [CrawlWebpage, hne, if_false, hlinks, mem_sortStrings]
  refine ⟨trivial, ?_, ?_⟩
  · rw [(sortStrings_perm [B, A]).length_eq]; rfl
  · intro u
    simp only [List.mem_cons, List.mem_singleton, List.not_mem_nil, or_false]
    exact or_comm

theorem two_page_cycle_witness :
    (CrawlWebpage urlParse cycleSite "http://a.com/" 2 State.empty).err = none ∧
      (CrawlWebpage urlParse cycleSite "http://a.com/" 2 State.empty).result.length = 2 ∧
      ∀ u, u ∈ (CrawlWebpage urlParse cycleSite "http://a.com/" 2 State.empty).result ↔
        u = "http://a.com/" ∨ u = "http://a.com/b" :=
  two_page_cycle urlParse cycleSite "http://a.com/" "http://a.com/b" 2
    (by decide) (by decide) (by decide) (by decide) (by decide) (by decide) (by decide)

/-- C8, as stated, fails.  After a first call on `http://a.com`, a call on
`http://b.org` (a page that does not load) returns the three links of the first
call, where the same call alone returns nothing; and after a first call at depth
0, a call on the same root at depth 3 returns two links, where the same call
alone returns three. -/
theorem state_leaks_counterexample :
    (CrawlWebpage urlParse demoSite "http://b.org" 3
        (CrawlWebpage urlParse demoSite "http://a.com" 3 State.empty).state).result =
        ["http://a.com", "http://a.com/b", "http://a.com/d"] ∧
      (CrawlWebpage urlParse demoSite "http://b.org" 3 State.empty).result = [] ∧
      (CrawlWebpage urlParse demoSite "http://a.com" 3
        (CrawlWebpage urlParse demoSite "http://a.com" 0 State.empty).state).result =
        ["http://a.com", "http://a.com/b"] ∧
      (CrawlWebpage urlParse demoSite "http://a.com" 3 State.empty).result =
        ["http://a.com", "http://a.com/b", "http://a.com/d"] := by
  decide

/-- C8, amended. The links and the visited set live on between calls: of two
consecutive calls in one process, the second (with a non-empty root) returns
every URL that the first returned. -/
theorem second_call_keeps_first_links (parse : String → Option URL)
    (site : String → Option (List String)) (r1 : String) (d1 : Int) (r2 : String) (d2 : Int)
    (h2 : r2 ≠ "") :
    ∀ u ∈ (CrawlWebpage parse site r1 d1 State.empty).result,
      u ∈ (CrawlWebpage parse site r2 d2
        (CrawlWebpage parse site r1 d1 State.empty).state).result := by
  intro u hu
  have hstate : u ∈ (CrawlWebpage parse site r1 d1 State.empty).state.links := by
    by_cases h1 : r1 = ""
    · simp [CrawlWebpage, h1] at hu
    · simpa [CrawlWebpage, h1] using hu
  simp only [CrawlWebpage, h2, if_false, mem_sortStrings]
  exact crawl_links_mono parse site r2 r2 d2 _ u hstate

theorem second_call_keeps_first_links_witness :
    "http://b.org" ≠ "" ∧
      ∀ u ∈ (CrawlWebpage urlParse demoSite "http://a.com" 3 State.empty).result,
        u ∈ (CrawlWebpage urlParse demoSite "http://b.org" 3
          (CrawlWebpage urlParse demoSite "http://a.com" 3 State.empty).state).result :=
  ⟨by decide,
    second_call_keeps_first_links urlParse demoSite "http://a.com" 3 "http://b.org" 3 (by decide)⟩

/-- C9. When both URLs parse, `sameHost` holds exactly when the keys of the two
parsed hosts are equal; the key `getMainDomain` strips one leading `www.`,
splits on `.` and joins the last two labels, and is empty when fewer than two
labels remain.  The worked examples of the specification evaluate as stated. -/
theorem sameHost_iff_key_eq :
    (∀ (parse : String → Option URL) (u1 u2 : String) (p1 p2 : URL),
        parse u1 = some p1 → parse u2 = some p2 →
        (sameHost parse u1 u2 = true ↔ getMainDomain p1.Host = getMainDomain p2.Host)) ∧
      (∀ host, getMainDomain host = domainMatchKey host) ∧
      sameHost urlParse "http://www.example.com/a" "http://example.com/b" = true ∧
      sameHost urlParse "http://blog.example.com" "http://shop.example.com" = true ∧
      sameHost urlParse "http://example.com" "http://example.org" = false ∧
      getMainDomain "blog.example.co.uk" = "co.uk" ∧
      getMainDomain "localhost" = "" ∧
      sameHost urlParse "http://localhost/a" "http://intranet/b" = true ∧
      sameHost urlParse "http://localhost/a" "http://example.com/b" = false := by
  refine ⟨?_, getMainDomain_eq_domainMatchKey, by decide, by decide, by decide, by decide,
    by decide, by decide, by decide⟩
  intro parse u1 u2 p1 p2 h1 h2
  simp [sameHost, h1, h2]

theorem sameHost_iff_key_eq_witness :
    sameHost urlParse "http://www.example.com/a" "http://example.com/b" = true ↔
      getMainDomain "www.example.com" = getMainDomain "example.com" :=
  sameHost_iff_key_eq.1 urlParse "http://www.example.com/a" "http://example.com/b"
    ⟨"http", "www.example.com"⟩ ⟨"http", "example.com"⟩ (by decide) (by decide)

/-- C10, as stated, fails at the host `www.com`: the key of `www.www.com` is
`www.com`, the key of `www.com` is empty, and `sameHost` is false. -/
theorem www_not_ignored_counterexample :
    sameHost urlParse ("http://www." ++ "www.com" ++ "/a") ("http://" ++ "www.com" ++ "/b") =
        false ∧
      getMainDomain ("www." ++ "www.com") = "www.com" ∧ getMainDomain "www.com" = "" := by
  decide

/-- C10, amended. For every host `h` that is not `www.` followed by a label
without a dot, `getMainDomain("www." + h) = getMainDomain(h)`, and for all
paths `a`, `b` with which the two URLs parse to the hosts `www.` + `h` and `h`,
`sameHost("http://www." + h + a, "http://" + h + b)` is true. -/
theorem sameHost_www (parse : String → Option URL) (h a b scheme1 scheme2 : String)
    (hh : ¬ (HasPrefix h "www." = true ∧ '.' ∉ (TrimPrefix h "www.").data))
    (hp1 : parse ("http://www." ++ h ++ a) = some ⟨scheme1, "www." ++ h⟩)
    (hp2 : parse ("http://" ++ h ++ b) = some ⟨scheme2, h⟩) :
    getMainDomain ("www." ++ h) = getMainDomain h ∧
      sameHost parse ("http://www." ++ h ++ a) ("http://" ++ h ++ b) = true := by
  have hkey := getMainDomain_www h hh
  refine ⟨hkey, ?_⟩
  simp [sameHost, hp1, hp2, hkey]

theorem sameHost_www_witness :
    getMainDomain ("www." ++ "example.com") = getMainDomain "example.com" ∧
      sameHost urlParse ("http://www." ++ "example.com" ++ "/a")
        ("http://" ++ "example.com" ++ "/b") = true :=
  sameHost_www urlParse "example.com" "/a" "/b" "http" "http" (by decide) (by decide) (by decide)

/-! ## Pages read without recursion -/

section Shallow

variable (parse : String → Option URL) (site : String → Option (List String))

theorem visitedIffLinks_empty : VisitedIffLinks State.empty := by
  intro u
  simp [State.empty]

theorem visitedIffLinks_get (s : State) (u : String) (h : VisitedIffLinks s) :
    VisitedIffLinks (s.get u) := h

/-- One `href` at a depth that leaves no budget to recurse: the link is recorded
when it resolves, passes `sameHost` and is new, and nothing else changes. -/
theorem processHref_shallow (recur : String → Int → State → State) (rootURL : String)
    (depth : Int) (hd : ¬ (depth - 1 > 0)) (s : State) (link : String)
    (hs : VisitedIffLinks s) :
    VisitedIffLinks (processHref parse recur rootURL depth s link) ∧
      (processHref parse recur rootURL depth s link).fetched = s.fetched ∧
      ∀ u, u ∈ (processHref parse recur rootURL depth s link).links ↔
        u ∈ s.links ∨
          (makeAbsoluteURL parse link rootURL = some u ∧ sameHost parse u rootURL = true) := by
  unfold processHref
  cases habs : makeAbsoluteURL parse link rootURL with
  | none => simp [hs]
  | some a =>
    by_cases hsame : sameHost parse a rootURL = true
    · by_cases hvis : s.visited a = false
      · simp only [hsame, hvis, hd, if_true, if_false]
        refine ⟨?_, rfl, ?_⟩
        · intro u
          simp only [State.record, List.mem_append, List.mem_singleton]
          by_cases hua : u = a
          · simp [hua]
          · simp [hua, hs u]
        · intro u
          simp only [State.record, List.mem_append, List.mem_singleton, Option.some.injEq]
          constructor
          · rintro (h | h)
            · exact Or.inl h
            · exact Or.inr ⟨h.symm, by rw [h]; exact hsame⟩
          · rintro (h | ⟨h, _⟩)
            · exact Or.inl h
            · exact Or.inr h.symm
      · have hv : s.visited a = true := by simpa using hvis
        simp only [hsame, hv, if_true]
        refine ⟨hs, rfl, ?_⟩
        intro u
        simp only [Option.some.injEq]
        constructor
        · intro h; exact Or.inl h
        · rintro (h | ⟨h, _⟩)
          · exact h
          · rw [← h]; exact (hs a).1 hv
    · simp only [hsame]
      refine ⟨hs, rfl, ?_⟩
      intro u
      simp only [Option.some.injEq]
      constructor
      · intro h; exact Or.inl h
      · rintro (h | ⟨h, h2⟩)
        · exact h
        · rw [← h] at h2; exact absurd h2 hsame

theorem foldl_processHref_shallow (recur : String → Int → State → State) (rootURL : String)
    (depth : Int) (hd : ¬ (depth - 1 > 0)) :
    ∀ (hrefs : List String) (s : State), VisitedIffLinks s →
      VisitedIffLinks (hrefs.foldl (processHref parse recur rootURL depth) s) ∧
        (hrefs.foldl (processHref parse recur rootURL depth) s).fetched = s.fetched ∧
        ∀ u, u ∈ (hrefs.foldl (processHref parse recur rootURL depth) s).links ↔
          u ∈ s.links ∨ ∃ link ∈ hrefs,
            makeAbsoluteURL parse link rootURL = some u ∧ sameHost parse u rootURL = true
  | [], s, hs => ⟨hs, rfl, fun u => by simp⟩
  | link :: rest, s, hs => by
    obtain ⟨h1, h2, h3⟩ := processHref_shallow parse recur rootURL depth hd s link hs
    obtain ⟨k1, k2, k3⟩ := foldl_processHref_shallow recur rootURL depth hd rest _ h1
    rw [List.foldl_cons]
    refine ⟨k1, k2.trans h2, ?_⟩
    intro u
    rw [k3 u, h3 u]
    simp only [List.mem_cons, exists_eq_or_imp]
    tauto

/-- With no budget to recurse the depth does not matter. -/
theorem processHref_shallow_congr (r1 r2 : String → Int → State → State) (rootURL : String)
    (d1 d2 : Int) (h1 : ¬ (d1 - 1 > 0)) (h2 : ¬ (d2 - 1 > 0)) :
    processHref parse r1 rootURL d1 = processHref parse r2 rootURL d2 := by
  funext s link
  simp [processHref, h1, h2]

theorem crawl_one_eq_zero (rootURL baseURL : String) (s : State) :
    crawl parse site rootURL baseURL 1 s = crawl parse site rootURL baseURL 0 s := by
  have e1 : (1 : Int).toNat + 1 = 2 := rfl
  have e0 : (0 : Int).toNat + 1 = 1 := rfl
  unfold crawl
  rw [e1, e0]
  simp only [crawlFuel]
  rw [processHref_shallow_congr parse _ (crawlFuel parse site rootURL 0) rootURL 1 0
    (by decide) (by decide)]
  rfl

/-- The crawl of one page at depth 0 from a state where the visited set holds
the recorded links. -/
theorem crawl_zero (rootURL baseURL : String) (s : State) (hs : VisitedIffLinks s) :
    (crawl parse site rootURL baseURL 0 s).fetched = s.fetched ++ [baseURL] ∧
      ∀ u, u ∈ (crawl parse site rootURL baseURL 0 s).links ↔
        u ∈ s.links ∨ ∃ hrefs link, site baseURL = some hrefs ∧ link ∈ hrefs ∧
          makeAbsoluteURL parse link rootURL = some u ∧ sameHost parse u rootURL = true := by
  have e0 : (0 : Int).toNat + 1 = 1 := rfl
  unfold crawl
  rw [e0]
  unfold crawlFuel
  simp only [lt_self_iff_false, if_false]
  cases hsite : site baseURL with
  | none => simp [State.get]
  | some hrefs =>
    obtain ⟨_, k2, k3⟩ := foldl_processHref_shallow parse (crawlFuel parse site rootURL 0)
      rootURL 0 (by decide) hrefs (s.get baseURL) (visitedIffLinks_get s baseURL hs)
    refine ⟨by rw [k2]; rfl, ?_⟩
    intro u
    rw [k3 u]
    simp [State.get]

theorem crawlFuel_withEmptyPage (rootURL P : String) (hP : site P = none) :
    ∀ fuel : Nat, crawlFuel parse (withEmptyPage site P) rootURL fuel =
      crawlFuel parse site rootURL fuel := by
  intro fuel
  induction fuel with
  | zero => funext b d s; simp [crawlFuel]
  | succ n ih =>
    funext b d s
    simp only [crawlFuel, ih]
    by_cases hb : b = P
    · simp [withEmptyPage, hb, hP]
    · simp [withEmptyPage, hb]

theorem crawl_fetched_links_growth (rootURL baseURL : String) (depth : Int) (s : State) :
    ∃ gets new, (crawl parse site rootURL baseURL depth s).fetched = s.fetched ++ gets ∧
      (crawl parse site rootURL baseURL depth s).links = s.links ++ new ∧
      gets.length ≤ new.length + 1 := by
  by_cases hd : depth < 0
  · rw [crawl_neg parse site rootURL baseURL depth s hd]
    exact ⟨[], [], by simp, by simp, by simp⟩
  · apply crawl_inv parse site rootURL
      (fun t => ∃ gets new, t.fetched = s.fetched ++ gets ∧ t.links = s.links ++ new ∧
        gets.length ≤ new.length + 1)
    · rintro t _ _ _ a ⟨gets, new, h1, h2, h3⟩ _ _ _ _ _ _
      exact ⟨gets, new ++ [a], h1, by simp [State.record, h2], by simp; omega⟩
    · rintro t _ _ _ a ⟨gets, new, h1, h2, h3⟩ _ _ _ _ _ _
      exact ⟨gets ++ [a], new ++ [a], by simp [State.record, State.get, h1],
        by simp [State.record, State.get, h2], by simp; omega⟩
    · omega
    · exact ⟨[baseURL], [], by simp [State.get], by simp [State.get], by simp⟩

end Shallow

/-! ## The claims, continued -/

/-- C11. Depth zero: from the empty state `CrawlWebpage(rootURL, 0)` requests the
root page only, and its list is strictly ascending with exactly these members:
the URLs to which an `href` of the root page resolves without error and which
pass `sameHost` against the root.  A link found only on another page is not in
the list. -/
theorem depth_zero_first_hop_only (parse : String → Option URL)
    (site : String → Option (List String)) (rootURL : String) (hroot : rootURL ≠ "") :
    (CrawlWebpage parse site rootURL 0 State.empty).state.fetched = [rootURL] ∧
      (∀ u, u ∈ (CrawlWebpage parse site rootURL 0 State.empty).result ↔
        ∃ hrefs link, site rootURL = some hrefs ∧ link ∈ hrefs ∧
          makeAbsoluteURL parse link rootURL = some u ∧ sameHost parse u rootURL = true) ∧
      List.Pairwise (fun a b => a < b) (CrawlWebpage parse site rootURL 0 State.empty).result := by
  obtain ⟨hf, hl⟩ := crawl_zero parse site rootURL rootURL State.empty visitedIffLinks_empty
  have hinv := crawl_linksVisited parse site rootURL rootURL 0 State.empty linksVisited_empty
  simp only [CrawlWebpage, hroot, if_false, mem_sortStrings]
  refine ⟨by simpa [State.empty] using hf, ?_, sortStrings_strict _ hinv.1⟩
  intro u
  rw [hl u]
  simp [State.empty]

theorem depth_zero_first_hop_only_witness :
    ((CrawlWebpage urlParse demoSite "http://a.com" 0 State.empty).state.fetched =
        ["http://a.com"] ∧
      (∀ u, u ∈ (CrawlWebpage urlParse demoSite "http://a.com" 0 State.empty).result ↔
        ∃ hrefs link, demoSite "http://a.com" = some hrefs ∧ link ∈ hrefs ∧
          makeAbsoluteURL urlParse link "http://a.com" = some u ∧
          sameHost urlParse u "http://a.com" = true) ∧
      List.Pairwise (fun a b => a < b)
        (CrawlWebpage urlParse demoSite "http://a.com" 0 State.empty).result) ∧
      (CrawlWebpage urlParse demoSite "http://a.com" 0 State.empty).result =
        ["http://a.com", "http://a.com/b"] ∧
      "http://a.com/d" ∈ (CrawlWebpage urlParse demoSite "http://a.com" 3 State.empty).result :=
  ⟨depth_zero_first_hop_only urlParse demoSite "http://a.com" (by decide), by decide, by decide⟩

/-- C12. `CrawlWebpage` returns an error exactly when the root URL is the empty
string.  In that case the returned slice is nil and the state, with its trace of
requests, is the state before the call; for every other root URL, whatever its
syntax and whatever the site answers, the error is nil. -/
theorem CrawlWebpage_error_iff_empty_root (parse : String → Option URL)
    (site : String → Option (List String)) (rootURL : String) (maxDepth : Int) (s : State) :
    ((CrawlWebpage parse site rootURL maxDepth s).err ≠ none ↔ rootURL = "") ∧
      (rootURL = "" →
        (CrawlWebpage parse site rootURL maxDepth s).result = [] ∧
        (CrawlWebpage parse site rootURL maxDepth s).state = s) ∧
      (rootURL ≠ "" → (CrawlWebpage parse site rootURL maxDepth s).err = none) := by
  by_cases hroot : rootURL = ""
  · simp [CrawlWebpage, hroot]
  · simp [CrawlWebpage, hroot]

/-- C13. A page that fails to load counts as a page without anchors: when the
request of `P` fails, the crawl returns the same list, with the same error value
and the same sequence of requests, as on the site that differs only in that `P`
loads and has no anchors. -/
theorem failed_fetch_like_empty_page (parse : String → Option URL)
    (site : String → Option (List String)) (P rootURL : String) (maxDepth : Int)
    (hP : site P = none) :
    (CrawlWebpage parse site rootURL maxDepth State.empty).result =
        (CrawlWebpage parse (withEmptyPage site P) rootURL maxDepth State.empty).result ∧
      (CrawlWebpage parse site rootURL maxDepth State.empty).err =
        (CrawlWebpage parse (withEmptyPage site P) rootURL maxDepth State.empty).err ∧
      (CrawlWebpage parse site rootURL maxDepth State.empty).state.fetched =
        (CrawlWebpage parse (withEmptyPage site P) rootURL maxDepth State.empty).state.fetched := by
  simp only [CrawlWebpage, crawl, crawlFuel_withEmptyPage parse site rootURL P hP]
  exact ⟨trivial, trivial, trivial⟩

theorem failed_fetch_like_empty_page_witness :
    brokenLinkSite "http://s.com/p" = none ∧
      ((CrawlWebpage urlParse brokenLinkSite "http://s.com/" 2 State.empty).result =
          (CrawlWebpage urlParse (withEmptyPage brokenLinkSite "http://s.com/p") "http://s.com/" 2
            State.empty).result ∧
        (CrawlWebpage urlParse brokenLinkSite "http://s.com/" 2 State.empty).err =
          (CrawlWebpage urlParse (withEmptyPage brokenLinkSite "http://s.com/p") "http://s.com/" 2
            State.empty).err ∧
        (CrawlWebpage urlParse brokenLinkSite "http://s.com/" 2 State.empty).state.fetched =
          (CrawlWebpage urlParse (withEmptyPage brokenLinkSite "http://s.com/p") "http://s.com/" 2
            State.empty).state.fetched) ∧
      (CrawlWebpage urlParse brokenLinkSite "http://s.com/" 2 State.empty).result =
        ["http://s.com/p", "http://s.com/q", "http://s.com/z"] ∧
      (CrawlWebpage urlParse brokenLinkSite "http://s.com/" 2 State.empty).state.fetched =
        ["http://s.com/", "http://s.com/p", "http://s.com/q"] :=
  ⟨by decide,
    failed_fetch_like_empty_page urlParse brokenLinkSite "http://s.com/p" "http://s.com/" 2
      (by decide),
    by decide, by decide⟩

/-- C14. The crawl terminates.  `crawl` is a total function; a call at depth
`depth` never nests deeper than `depth + 1` calls, so every larger bound on the
nesting gives the same final state; and the call adds finitely many requests to
the trace, at most one more than the number of links it records. -/
theorem crawl_terminates (parse : String → Option URL) (site : String → Option (List String))
    (rootURL baseURL : String) (depth : Int) (s : State) :
    (∀ fuel : Nat, depth.toNat < fuel →
        crawlFuel parse site rootURL fuel baseURL depth s =
          crawl parse site rootURL baseURL depth s) ∧
      ∃ gets new, (crawl parse site rootURL baseURL depth s).fetched = s.fetched ++ gets ∧
        (crawl parse site rootURL baseURL depth s).links = s.links ++ new ∧
        gets.length ≤ new.length + 1 :=
  ⟨fun fuel h => crawlFuel_enough parse site rootURL fuel baseURL depth s h,
    crawl_fetched_links_growth parse site rootURL baseURL depth s⟩

/-- C15. For a non-empty root URL and a negative depth, `CrawlWebpage` from the
empty state makes no request and returns an empty list with a nil error. -/
theorem negative_depth_no_work (parse : String → Option URL)
    (site : String → Option (List String)) (rootURL : String) (maxDepth : Int)
    (hroot : rootURL ≠ "") (hneg : maxDepth < 0) :
    (CrawlWebpage parse site rootURL maxDepth State.empty).state.fetched = [] ∧
      (CrawlWebpage parse site rootURL maxDepth State.empty).result = [] ∧
      (CrawlWebpage parse site rootURL maxDepth State.empty).err = none := by
  simp [CrawlWebpage, hroot, crawl_neg parse site rootURL rootURL maxDepth _ hneg, State.empty,
    sortStrings]

theorem negative_depth_no_work_witness :
    "http://a.com" ≠ "" ∧ (-1 : Int) < 0 ∧
      (CrawlWebpage urlParse demoSite "http://a.com" (-1) State.empty).state.fetched = [] ∧
      (CrawlWebpage urlParse demoSite "http://a.com" (-1) State.empty).result = [] ∧
      (CrawlWebpage urlParse demoSite "http://a.com" (-1) State.empty).err = none :=
  ⟨by decide, by decide,
    negative_depth_no_work urlParse demoSite "http://a.com" (-1) (by decide) (by decide)⟩

/-- C16. An `href` that begins with `http://` or `https://` is returned as it
is, with no error, whatever the base string and whether or not it parses; no
path normalization takes place. -/
theorem makeAbsoluteURL_absolute_unchanged (parse : String → Option URL)
    (href base : String)
    (h : HasPrefix href "http://" = true ∨ HasPrefix href "https://" = true) :
    makeAbsoluteURL parse href base = some href :=
  makeAbsoluteURL_absolute parse href base h

theorem makeAbsoluteURL_absolute_unchanged_witness :
    urlParse ":no scheme" = none ∧
      makeAbsoluteURL urlParse "http://other.com/a/../z" ":no scheme" =
        some "http://other.com/a/../z" :=
  ⟨by decide,
    makeAbsoluteURL_absolute_unchanged urlParse "http://other.com/a/../z" ":no scheme"
      (Or.inl (by decide))⟩

/-- C17. Discovery is not monotone in the depth.  On the site where the root
links to `a` and `x`, `a` to `p`, `p` to `x` and `x` to `y`, the crawl at depth 2
finds `y` and the crawl at depth 3 does not: at depth 3 `x` is first recorded
from `p`, with no budget left to read it, and is skipped as visited when the
root links to it. -/
theorem discovery_not_monotone :
    (CrawlWebpage urlParse detourSite "http://s.com/" 2 State.empty).result =
        ["http://s.com/a", "http://s.com/p", "http://s.com/x", "http://s.com/y"] ∧
      (CrawlWebpage urlParse detourSite "http://s.com/" 3 State.empty).result =
        ["http://s.com/a", "http://s.com/p", "http://s.com/x"] ∧
      "http://s.com/y" ∈ (CrawlWebpage urlParse detourSite "http://s.com/" 2 State.empty).result ∧
      "http://s.com/y" ∉ (CrawlWebpage urlParse detourSite "http://s.com/" 3 State.empty).result ∧
      (CrawlWebpage urlParse detourSite "http://s.com/" 3 State.empty).state.fetched =
        ["http://s.com/", "http://s.com/a", "http://s.com/p"] := by
  decide

/-- C19. Depth 1 behaves like depth 0: for a non-empty root URL the two calls
from the empty state request the root page only and return the same list. -/
theorem depth_one_like_depth_zero (parse : String → Option URL)
    (site : String → Option (List String)) (rootURL : String) (hroot : rootURL ≠ "") :
    (CrawlWebpage parse site rootURL 1 State.empty).result =
        (CrawlWebpage parse site rootURL 0 State.empty).result ∧
      (CrawlWebpage parse site rootURL 1 State.empty).state.fetched = [rootURL] ∧
      (CrawlWebpage parse site rootURL 0 State.empty).state.fetched = [rootURL] := by
  obtain ⟨hf, _⟩ := crawl_zero parse site rootURL rootURL State.empty visitedIffLinks_empty
  simp only [CrawlWebpage, hroot, if_false, crawl_one_eq_zero]
  exact ⟨trivial, by simpa [State.empty] using hf, by simpa [State.empty] using hf⟩

theorem depth_one_like_depth_zero_witness :
    "http://a.com" ≠ "" ∧
      (CrawlWebpage urlParse demoSite "http://a.com" 1 State.empty).result =
        (CrawlWebpage urlParse demoSite "http://a.com" 0 State.empty).result ∧
      (CrawlWebpage urlParse demoSite "http://a.com" 1 State.empty).state.fetched =
        ["http://a.com"] ∧
      (CrawlWebpage urlParse demoSite "http://a.com" 0 State.empty).state.fetched =
        ["http://a.com"] :=
  ⟨by decide, depth_one_like_depth_zero urlParse demoSite "http://a.com" (by decide)⟩

/-! ## The depth bound -/

section DepthBound

variable (parse : String → Option URL) (site : String → Option (List String))

/-- A chain stays a chain when more requests are made. -/
theorem linkChain_mono (rootURL : String) (F G : List String) (hFG : ∀ x ∈ F, x ∈ G)
    (n : Nat) (u : String) (h : LinkChain parse site rootURL F n u) :
    LinkChain parse site rootURL G n u := by
  induction h with
  | root => exact LinkChain.root
  | step _ hedge ih => exact LinkChain.step ih ⟨hFG _ hedge.1, hedge.2⟩

theorem withinDepth_record (rootURL : String) (B D : Int) (s : State) (a : String) (k : Nat)
    (h : WithinDepth parse site rootURL B D s) (hk : (k : Int) + 1 ≤ B)
    (hc : LinkChain parse site rootURL s.fetched (k + 1) a) :
    WithinDepth parse site rootURL B D (s.record a) := by
  refine ⟨?_, h.2⟩
  intro u hu
  simp only [State.record, List.mem_append, List.mem_singleton] at hu
  rcases hu with hu | hu
  · exact h.1 u hu
  · rw [hu]
    exact ⟨k + 1, by omega, by push_cast; omega, hc⟩

theorem withinDepth_get (rootURL : String) (B D : Int) (s : State) (a : String) (k : Nat)
    (h : WithinDepth parse site rootURL B D s) (hk : (k : Int) + 1 ≤ D - 1)
    (hc : LinkChain parse site rootURL s.fetched (k + 1) a) :
    WithinDepth parse site rootURL B D (s.get a) := by
  have hmono : ∀ x ∈ s.fetched, x ∈ (s.get a).fetched :=
    fun x hx => mem_fetched_get_of_mem s a x hx
  refine ⟨?_, ?_⟩
  · intro u hu
    obtain ⟨n, h1, h2, h3⟩ := h.1 u hu
    exact ⟨n, h1, h2, linkChain_mono parse site rootURL _ _ hmono n u h3⟩
  · intro p hp hne
    simp only [State.get, List.mem_append, List.mem_singleton] at hp
    rcases hp with hp | hp
    · obtain ⟨n, h1, h2, h3⟩ := h.2 p hp hne
      exact ⟨n, h1, h2, linkChain_mono parse site rootURL _ _ hmono n p h3⟩
    · rw [hp]
      exact ⟨k + 1, by omega, by push_cast; omega,
        linkChain_mono parse site rootURL _ _ hmono (k + 1) a hc⟩

/-- The links of a requested page at chain length `k`, read with `depth` levels
of budget where `k + depth <= D`, are recorded at chain length `k + 1`, and the
pages requested below it lie at chain lengths up to `D - 1`. -/
theorem foldl_processHref_withinDepth (rootURL : String) (B D : Int) (hDB : D ≤ B) :
    ∀ (fuel : Nat) (depth : Int) (page : String) (k : Nat) (all hrefs : List String)
      (s : State),
      site page = some all → (∀ l ∈ hrefs, l ∈ all) → page ∈ s.fetched →
      LinkChain parse site rootURL s.fetched k page → (k : Int) + 1 ≤ B →
      (depth - 1 > 0 → (k : Int) + depth ≤ D) →
      WithinDepth parse site rootURL B D s →
      WithinDepth parse site rootURL B D
        (hrefs.foldl (processHref parse (crawlFuel parse site rootURL fuel) rootURL depth) s) := by
  intro fuel
  induction fuel with
  | zero =>
    intro depth page k all hrefs
    induction hrefs with
    | nil => intro s _ _ _ _ _ _ hQ; exact hQ
    | cons link rest ih =>
      intro s hpage hsub hfetched hchain hkB hkD hQ
      have hmono : ∀ x ∈ s.fetched, x ∈ (processHref parse (crawlFuel parse site rootURL 0)
          rootURL depth s link).fetched := fun x hx =>
        processHref_fetched_mono parse _ rootURL depth x
          (crawlFuel_fetched_mono parse site rootURL x 0) s link hx
      rw [List.foldl_cons]
      apply ih _ hpage (fun l hl => hsub l (List.mem_cons_of_mem _ hl)) (hmono page hfetched)
        (linkChain_mono parse site rootURL _ _ hmono k page hchain) hkB hkD
      unfold processHref
      split
      · exact hQ
      · rename_i absoluteURL habs
        split
        · rename_i hsame
          split
          · have hc : LinkChain parse site rootURL s.fetched (k + 1) absoluteURL :=
              LinkChain.step hchain
                ⟨hfetched, all, link, hpage, hsub link (List.mem_cons_self _ _), habs, hsame⟩
            have h1 := withinDepth_record parse site rootURL B D s absoluteURL k hQ hkB hc
            split
            · simpa [crawlFuel] using h1
            · exact h1
          · exact hQ
        · exact hQ
  | succ fuel ihf =>
    intro depth page k all hrefs
    induction hrefs with
    | nil => intro s _ _ _ _ _ _ hQ; exact hQ
    | cons link rest ih =>
      intro s hpage hsub hfetched hchain hkB hkD hQ
      have hmono : ∀ x ∈ s.fetched, x ∈ (processHref parse
          (crawlFuel parse site rootURL (fuel + 1)) rootURL depth s link).fetched := fun x hx =>
        processHref_fetched_mono parse _ rootURL depth x
          (crawlFuel_fetched_mono parse site rootURL x (fuel + 1)) s link hx
      rw [List.foldl_cons]
      apply ih _ hpage (fun l hl => hsub l (List.mem_cons_of_mem _ hl)) (hmono page hfetched)
        (linkChain_mono parse site rootURL _ _ hmono k page hchain) hkB hkD
      unfold processHref
      split
      · exact hQ
      · rename_i absoluteURL habs
        split
        · rename_i hsame
          split
          · have hc : LinkChain parse site rootURL s.fetched (k + 1) absoluteURL :=
              LinkChain.step hchain
                ⟨hfetched, all, link, hpage, hsub link (List.mem_cons_self _ _), habs, hsame⟩
            have h1 := withinDepth_record parse site rootURL B D s absoluteURL k hQ hkB hc
            split
            · rename_i hdepth
              have hD := hkD hdepth
              have h2 := withinDepth_get parse site rootURL B D _ absoluteURL k h1
                (by omega) hc
              have hc2 : LinkChain parse site rootURL
                  ((s.record absoluteURL).get absoluteURL).fetched (k + 1) absoluteURL :=
                linkChain_mono parse site rootURL _ _
                  (fun x hx => mem_fetched_get_of_mem _ absoluteURL x hx) (k + 1) absoluteURL hc
              have hnot : ¬ (depth - 1 < 0) := by omega
              simp only [crawlFuel, hnot, if_false]
              cases hsite : site absoluteURL with
              | none => exact h2
              | some hrefs2 =>
                exact ihf (depth - 1) absoluteURL (k + 1) hrefs2 hrefs2 _ hsite (fun l hl => hl)
                  (mem_fetched_get _ _) hc2 (by push_cast; omega) (fun _ => by push_cast; omega)
                  h2
            · exact h1
          · exact hQ
        · exact hQ

theorem crawl_withinDepth (rootURL : String) (maxDepth : Int) (hd : 0 ≤ maxDepth) :
    WithinDepth parse site rootURL (max maxDepth 1) maxDepth
      (crawl parse site rootURL rootURL maxDepth State.empty) := by
  have h0 : WithinDepth parse site rootURL (max maxDepth 1) maxDepth
      (State.empty.get rootURL) := by
    refine ⟨fun u hu => by simp [State.get, State.empty] at hu, ?_⟩
    intro p hp hne
    simp only [State.get, State.empty, List.nil_append, List.mem_singleton] at hp
    exact absurd hp hne
  unfold crawl crawlFuel
  have hnot : ¬ (maxDepth < 0) := by omega
  simp only [hnot, if_false]
  cases hsite : site rootURL with
  | none => exact h0
  | some hrefs =>
    exact foldl_processHref_withinDepth parse site rootURL (max maxDepth 1) maxDepth
      (le_max_left _ _) _ maxDepth rootURL 0 hrefs hrefs _ hsite (fun l hl => hl)
      (mem_fetched_get _ _) LinkChain.root (by simp) (fun _ => by simp) h0

end DepthBound

/-- C18. Depth bound.  For `maxDepth >= 0`, every URL in the list returned from
the empty state is reached from the root by a chain of `n` links with
`1 <= n <= max(maxDepth, 1)`, and every requested page other than the root by
such a chain with `1 <= n <= maxDepth - 1`.  The links of a chain go from a page
that the crawl requested and that loaded to a URL that one of its `href` values
resolves to and that passes `sameHost` against the root. -/
theorem depth_bound (parse : String → Option URL) (site : String → Option (List String))
    (rootURL : String) (maxDepth : Int) (hd : 0 ≤ maxDepth) :
    (∀ u ∈ (CrawlWebpage parse site rootURL maxDepth State.empty).result,
        ∃ n : Nat, 1 ≤ n ∧ (n : Int) ≤ max maxDepth 1 ∧
          LinkChain parse site rootURL
            (CrawlWebpage parse site rootURL maxDepth State.empty).state.fetched n u) ∧
      ∀ p ∈ (CrawlWebpage parse site rootURL maxDepth State.empty).state.fetched, p ≠ rootURL →
        ∃ n : Nat, 1 ≤ n ∧ (n : Int) ≤ maxDepth - 1 ∧
          LinkChain parse site rootURL
            (CrawlWebpage parse site rootURL maxDepth State.empty).state.fetched n p := by
  by_cases hroot : rootURL = ""
  · simp [CrawlWebpage, hroot, State.empty]
  · have h := crawl_withinDepth parse site rootURL maxDepth hd
    simp only [CrawlWebpage, hroot, if_false, mem_sortStrings]
    exact h

theorem depth_bound_witness :
    (0 : Int) ≤ 3 ∧
      (∀ u ∈ (CrawlWebpage urlParse demoSite "http://a.com" 3 State.empty).result,
        ∃ n : Nat, 1 ≤ n ∧ (n : Int) ≤ max 3 1 ∧
          LinkChain urlParse demoSite "http://a.com"
            (CrawlWebpage urlParse demoSite "http://a.com" 3 State.empty).state.fetched n u) ∧
      ∀ p ∈ (CrawlWebpage urlParse demoSite "http://a.com" 3 State.empty).state.fetched,
        p ≠ "http://a.com" →
        ∃ n : Nat, 1 ≤ n ∧ (n : Int) ≤ 3 - 1 ∧
          LinkChain urlParse demoSite "http://a.com"
            (CrawlWebpage urlParse demoSite "http://a.com" 3 State.empty).state.fetched n p :=
  ⟨by decide, depth_bound urlParse demoSite "http://a.com" 3 (by decide)⟩

/-! ## `path.Clean` leaves no double slash -/

theorem chain'_of_no_slash : ∀ l : List Char, (∀ x ∈ l, x ≠ '/') → List.Chain' NotBothSlash l
  | [], _ => List.chain'_nil
  | x :: l, h => by
    rw [List.chain'_cons']
    refine ⟨fun y _ hxy => h x (List.mem_cons_self _ _) hxy.1, ?_⟩
    exact chain'_of_no_slash l (fun y hy => h y (List.mem_cons_of_mem _ hy))

theorem chain'_slash_cons (out : List Char) (h : List.Chain' NotBothSlash out)
    (hh : out.head? ≠ some '/') : List.Chain' NotBothSlash ('/' :: out) := by
  rw [List.chain'_cons']
  refine ⟨fun y hy hxy => hh ?_, h⟩
  rw [Option.mem_def] at hy
  rw [hy, hxy.2]

/-- Writing a path element, with or without a slash before it, keeps the
invariant. -/
theorem cleanInv_element (rooted : Bool) (out : List Char) (dotdot : Nat) (w out1 : List Char)
    (h : CleanInv rooted out dotdot) (hw : w ≠ []) (hns : ∀ x ∈ w, x ≠ '/')
    (hout1 : out1 = out ∨ (out1 = '/' :: out ∧ out.head? ≠ some '/')) :
    CleanInv rooted (w ++ out1) dotdot := by
  obtain ⟨hchain, _, suf, pre, hsplit, hlen, hpre⟩ := h
  have hc1 : List.Chain' NotBothSlash out1 := by
    rcases hout1 with h1 | ⟨h1, h2⟩
    · rw [h1]; exact hchain
    · rw [h1]; exact chain'_slash_cons out hchain h2
  refine ⟨?_, ?_, ?_⟩
  · apply List.Chain'.append (chain'_of_no_slash w hns) hc1
    intro x hx y _ hxy
    exact hns x (List.mem_of_mem_getLast? hx) hxy.1
  · intro hhead
    cases w with
    | nil => exact absurd rfl hw
    | cons x w2 =>
      simp only [List.cons_append, List.head?_cons, Option.some.injEq] at hhead
      exact absurd hhead (hns x (List.mem_cons_self _ _))
  · rcases hout1 with h1 | ⟨h1, _⟩
    · exact ⟨w ++ suf, pre, by rw [h1, hsplit, List.append_assoc], hlen, hpre⟩
    · exact ⟨w ++ '/' :: suf, pre, by rw [h1, hsplit]; simp, hlen, hpre⟩

/-- Writing `..` at the front of a path that is not rooted keeps the invariant,
with the mark moved to the end of the buffer. -/
theorem cleanInv_dotdot (out : List Char) (dotdot : Nat) (out1 : List Char)
    (h : CleanInv false out dotdot)
    (hout1 : out1 = out ∨ out1 = '/' :: out) :
    CleanInv false ('.' :: '.' :: out1) (out1.length + 2) := by
  obtain ⟨hchain, hhead, _⟩ := h
  have hh : out.head? ≠ some '/' := fun hc => by simpa using (hhead hc).1
  have hc1 : List.Chain' NotBothSlash out1 := by
    rcases hout1 with h1 | h1
    · rw [h1]; exact hchain
    · rw [h1]; exact chain'_slash_cons out hchain hh
  refine ⟨?_, ?_, ?_⟩
  · rw [List.chain'_cons', List.chain'_cons']
    exact ⟨fun y _ hxy => by simpa using hxy.1, fun y _ hxy => by simpa using hxy.1, hc1⟩
  · intro hc
    simp at hc
  · refine ⟨[], '.' :: '.' :: out1, rfl, by simp, ?_⟩
    intro hc
    simp at hc

theorem backtrack_split (rooted : Bool) (dotdot : Nat) (pre : List Char)
    (hlen : pre.length = dotdot) (hpre : pre.head? = some '/' → rooted = true ∧ pre = ['/']) :
    ∀ suf : List Char, suf ≠ [] → List.Chain' NotBothSlash (suf ++ pre) →
      CleanInv rooted (backtrack dotdot (suf ++ pre)) dotdot
  | [], hne, _ => absurd rfl hne
  | x :: suf2, _, hchain => by
    have htail : List.Chain' NotBothSlash (suf2 ++ pre) := by
      simpa using hchain.tail
    rw [List.cons_append, backtrack]
    by_cases hs : suf2 = []
    · subst hs
      have hnot : ¬ (([] ++ pre).length > dotdot ∧ x ≠ '/') := by simp [hlen]
      rw [if_neg hnot]
      simp only [List.nil_append] at htail ⊢
      exact ⟨htail, hpre, [], pre, rfl, hlen, hpre⟩
    · by_cases hx : x = '/'
      · have hnot : ¬ ((suf2 ++ pre).length > dotdot ∧ x ≠ '/') := by simp [hx]
        rw [if_neg hnot]
        refine ⟨htail, ?_, suf2, pre, rfl, hlen, hpre⟩
        intro hhead
        cases suf2 with
        | nil => exact absurd rfl hs
        | cons y suf3 =>
          simp only [List.cons_append, List.head?_cons, Option.some.injEq] at hhead
          have hrel : NotBothSlash x y := by
            simp only [List.cons_append] at hchain
            exact hchain.rel_head
          exact absurd ⟨hx, hhead⟩ hrel
      · have hpos : (suf2 ++ pre).length > dotdot ∧ x ≠ '/' := by
          refine ⟨?_, hx⟩
          have : 0 < suf2.length := List.length_pos.2 hs
          simp only [List.length_append, hlen]
          omega
        rw [if_pos hpos]
        exact backtrack_split rooted dotdot pre hlen hpre suf2 hs htail

/-- Backtracking over `..` keeps the invariant. -/
theorem cleanInv_backtrack (rooted : Bool) (out : List Char) (dotdot : Nat)
    (h : CleanInv rooted out dotdot) (hgt : out.length > dotdot) :
    CleanInv rooted (backtrack dotdot out) dotdot := by
  obtain ⟨hchain, _, suf, pre, hsplit, hlen, hpre⟩ := h
  subst hsplit
  have hne : suf ≠ [] := by
    intro hs
    subst hs
    simp only [List.nil_append] at hgt
    omega
  exact backtrack_split rooted dotdot pre hlen hpre suf hne hchain

theorem mem_takeWhile_ne_slash (l : List Char) :
    ∀ x ∈ l.takeWhile (fun x => decide (x ≠ '/')), x ≠ '/' := by
  intro x hx
  have := List.mem_takeWhile_imp hx
  simpa using this

/-- The buffer that the loop of `path.Clean` ends with has no two neighbouring
slashes. -/
theorem cleanLoop_noDoubleSlash (rooted : Bool) :
    ∀ (fuel : Nat) (rest out : List Char) (dotdot : Nat), CleanInv rooted out dotdot →
      List.Chain' NotBothSlash (cleanLoop rooted fuel rest out dotdot) := by
  intro fuel
  induction fuel with
  | zero => intro rest out dotdot h; simpa [cleanLoop] using h.1
  | succ n ih =>
    intro rest out dotdot h
    cases rest with
    | nil => simpa [cleanLoop] using h.1
    | cons c r1 =>
      simp only [cleanLoop]
      by_cases hc1 : c = '/'
      · rw [if_pos hc1]; exact ih _ _ _ h
      · rw [if_neg hc1]
        split_ifs with hc2 hc3 hgt hroot hpos hcond
        · exact ih _ _ _ h
        · exact ih _ _ _ (cleanInv_backtrack rooted out dotdot h hgt)
        · subst hroot
          exact ih _ _ _ (cleanInv_dotdot out dotdot _ h (Or.inr rfl))
        · subst hroot
          exact ih _ _ _ (cleanInv_dotdot out dotdot _ h (Or.inl rfl))
        · exact ih _ _ _ h
        · apply ih
          apply cleanInv_element rooted out dotdot _ _ h
          · simp [List.takeWhile_cons, hc1]
          · intro x hx
            exact mem_takeWhile_ne_slash (c :: r1) x (List.mem_reverse.1 hx)
          · right
            refine ⟨rfl, ?_⟩
            intro hhead
            obtain ⟨hr, ho⟩ := h.2.1 hhead
            rcases hcond with ⟨_, hl⟩ | ⟨hf, _⟩
            · exact hl (by rw [ho]; rfl)
            · rw [hr] at hf; exact absurd hf (by decide)
        · apply ih
          apply cleanInv_element rooted out dotdot _ _ h
          · simp [List.takeWhile_cons, hc1]
          · intro x hx
            exact mem_takeWhile_ne_slash (c :: r1) x (List.mem_reverse.1 hx)
          · left; rfl

theorem notBothSlash_flip (a b : Char) (h : NotBothSlash a b) : flip NotBothSlash a b :=
  fun hc => h ⟨hc.2, hc.1⟩

/-- The output of `path.Clean` has no two neighbouring slashes. -/
theorem Clean_noDoubleSlash (path : String) : List.Chain' NotBothSlash (Clean path).data := by
  unfold Clean
  by_cases hp : path = ""
  · rw [if_pos hp]
    exact List.chain'_singleton _
  · rw [if_neg hp]
    have hrev : ∀ out : List Char, List.Chain' NotBothSlash out →
        List.Chain' NotBothSlash
          (if out.length = 0 then "." else (⟨out.reverse⟩ : String)).data := by
      intro out hout
      split
      · exact List.chain'_singleton _
      · exact List.chain'_reverse.2 (hout.imp notBothSlash_flip)
    by_cases hr : path.data.head? = some '/'
    · simp only [hr, decide_True, if_true]
      apply hrev
      apply cleanLoop_noDoubleSlash
      exact ⟨List.chain'_singleton _, fun _ => ⟨rfl, rfl⟩, [], ['/'], rfl, rfl,
        fun _ => ⟨rfl, rfl⟩⟩
    · simp only [hr, decide_False, if_false]
      apply hrev
      apply cleanLoop_noDoubleSlash
      exact ⟨List.chain'_nil, fun hc => by simp at hc, [], [], rfl, rfl,
        fun hc => by simp at hc⟩

theorem no_double_slash_of_chain' (l : List Char) (h : List.Chain' NotBothSlash l) :
    ¬ (['/', '/'] <:+: l) := by
  intro hinf
  have h2 : List.Chain' NotBothSlash ['/', '/'] := h.infix hinf
  exact (List.chain'_pair.1 h2) ⟨rfl, rfl⟩

/-- C20. For an `href` that begins with neither `http://` nor `https://` and a
base that parses, `makeAbsoluteURL` returns without error a string with no two
consecutive `/` characters: it does not contain `://`, and it is not the
concatenation `scheme + "://" + host + href`. -/
theorem makeAbsoluteURL_relative_no_double_slash (parse : String → Option URL)
    (href base : String) (b : URL)
    (h1 : HasPrefix href "http://" = false) (h2 : HasPrefix href "https://" = false)
    (hb : parse base = some b) :
    ∃ r, makeAbsoluteURL parse href base = some r ∧
      r = Clean (b.Scheme ++ "://" ++ b.Host ++ href) ∧
      ¬ ("//".data <:+: r.data) ∧ ¬ ("://".data <:+: r.data) ∧
      r ≠ b.Scheme ++ "://" ++ b.Host ++ href := by
  have hno := no_double_slash_of_chain' _
    (Clean_noDoubleSlash (b.Scheme ++ "://" ++ b.Host ++ href))
  refine ⟨Clean (b.Scheme ++ "://" ++ b.Host ++ href), ?_, rfl, hno, ?_, ?_⟩
  · simp [makeAbsoluteURL, h1, h2, hb]
  · intro hinf
    exact hno (List.IsInfix.trans ⟨[':'], [], rfl⟩ hinf)
  · intro heq
    apply hno
    rw [heq]
    exact ⟨b.Scheme.data ++ [':'], b.Host.data ++ href.data, by simp [String.data_append]⟩

theorem makeAbsoluteURL_relative_no_double_slash_witness :
    ∃ r, makeAbsoluteURL urlParse "/about" "http://example.com/x/y" = some r ∧
      r = Clean ("http" ++ "://" ++ "example.com" ++ "/about") ∧
      ¬ ("//".data <:+: r.data) ∧ ¬ ("://".data <:+: r.data) ∧
      r ≠ "http" ++ "://" ++ "example.com" ++ "/about" :=
  makeAbsoluteURL_relative_no_double_slash urlParse "/about" "http://example.com/x/y"
    ⟨"http", "example.com"⟩ (by decide) (by decide) (by decide)

end WebCrawler
